import Mathlib

/-!
# Verification of the Gantt timeline widget (`GanttView`)

A shallow embedding, in Lean 4, of the algorithmic core of the
`GanttView` control (`src/GanttView/GanttViewControl.tsx` and
`src/GanttView/index.ts`):

* the hierarchy orderer `orderGanttRows` (sibling comparator, sentinel
  filter, milestone attachment, depth-first traversal),
* the timeline geometry engine (`getTimelineBounds`, `getSegments`,
  `calculateStartX`, `calculateEndWidth`, the year-mode per-segment pixel
  allocation of `GanttTable`),
* the end-date drag interaction (`onBarDragMove`, `onGlobalMouseUp`),
* the color resolver (`parseColors` and the `updateView` color mapping).

Modelling conventions:

* JS `Date` values are epoch milliseconds (`Int`); the embedding works in
  UTC (the source uses local-time accessors; the model fixes the offset
  to zero, which does not affect any property proved here).
* JS floating-point percentages are modelled as exact rationals (`ℚ`).
* JS machine integers in pixel arithmetic are plain `Nat`/`Int` (the
  source never exceeds 2^53 there).
* `Array.prototype.sort` with a consistent comparator is a stable sort;
  it is modelled by `List.insertionSort`, which is stable.
* `String.prototype.localeCompare` on the tie-breaking ids is modelled
  as the sign of code-unit comparison, `toLowerCase` as `String.toLower`
  (the rows of interest are ASCII).
* The recursive `process` closure of `orderGanttRows` is embedded with
  explicit fuel `data.length`.  On inputs whose reachable parent/child
  graph is acyclic — in particular whenever row ids are distinct and no
  row has the empty id, see `processRows_fuel` remarks below — this fuel
  is sufficient, because any reachable row has a duplicate-free ancestor
  chain inside `data`.  On inputs with a reachable cycle the source
  itself diverges, so no terminating model can agree with it there.
-/

namespace Gantt

/-! ## Data model (`GanttRow` of `GanttViewControl.tsx`) -/

/-- Date fields of a milestone entry carried inside a row's `milestones`
array (only `startDate`/`endDate` of those entries are ever read by the
geometry engine). -/
structure MsSpan where
  startDate : Option Int := none
  endDate : Option Int := none
deriving DecidableEq, Repr

/-- One dataset row, mirroring the `GanttRow` type of the source.  The
computed fields `level` and the computed `milestones` list of the orderer
live in `OutRow`; the `milestones` field here is the *input* array (always
empty when rows come from `updateView`, but read by `getTimelineBounds`). -/
structure GanttRow where
  id : String
  sourceId : Option String := none
  name : String := ""
  assigned : Option String := none
  startDate : Option Int := none
  endDate : Option Int := none
  rowType : Option String := none
  progress : Option ℚ := none
  parentId : String := ""
  milestones : List MsSpan := []
deriving DecidableEq, Repr

/-- A row as emitted by `orderGanttRows`: the source mutates `row.level`
and `row.milestones` in place; the embedding returns them alongside. -/
structure OutRow where
  row : GanttRow
  level : Nat
  milestones : List GanttRow
deriving DecidableEq, Repr

inductive SortField
  | name
  | startDate
  | endDate
deriving DecidableEq, Repr

inductive SortDir
  | asc
  | desc
deriving DecidableEq, Repr

/-- JS `x || ""` on a nullable string (`null`, `undefined` and `""` all
collapse to `""`). -/
def jsOrEmpty (o : Option String) : String := o.getD ""

/-- ASCII lowercasing of one character (`String.prototype.toLowerCase`
restricted to ASCII, which covers every string this model compares). -/
def jsCharToLower (c : Char) : Char :=
  if 'A' ≤ c ∧ c ≤ 'Z' then Char.ofNat (c.toNat + 32) else c

/-- `s.toLowerCase()` on ASCII strings, implemented structurally so that
it evaluates inside the kernel. -/
def jsToLower (s : String) : String :=
  ⟨s.data.map jsCharToLower⟩

/-- `(r.rowType || "").toLowerCase() === "milestone"`. -/
def isMile (r : GanttRow) : Bool := jsToLower (jsOrEmpty r.rowType) = "milestone"

/-- `Number.MAX_SAFE_INTEGER`, the sort key used for absent dates. -/
def maxSafeInteger : Int := 9007199254740991

/-- Sort key for a nullable date: `r.startDate ? r.startDate.getTime() :
Number.MAX_SAFE_INTEGER`. -/
def valForDate (d : Option Int) : Int :=
  match d with
  | some t => t
  | none => maxSafeInteger

/-- The stable tie-breaker of the sibling comparator: case-insensitive
name, then id (`localeCompare` modelled as comparison sign). -/
def tieBreak (a b : GanttRow) : Int :=
  let an := jsToLower a.name
  let bn := jsToLower b.name
  if an < bn then -1
  else if bn < an then 1
  else if a.id < b.id then -1
  else if b.id < a.id then 1
  else 0

/-- The sibling comparator `compare` of `orderGanttRows` (source lines
401–421): primary key is the active sort field, multiplied by the
direction, ties broken by name then id (direction-independent). -/
def compareRows (sf : SortField) (sd : SortDir) (a b : GanttRow) : Int :=
  let dir : Int := if sd = SortDir.asc then 1 else -1
  match sf with
  | SortField.name =>
    let av := jsToLower a.name
    let bv := jsToLower b.name
    if av < bv then -1 * dir else if bv < av then 1 * dir else tieBreak a b
  | SortField.startDate =>
    let av := valForDate a.startDate
    let bv := valForDate b.startDate
    if av < bv then -1 * dir else if bv < av then 1 * dir else tieBreak a b
  | SortField.endDate =>
    let av := valForDate a.endDate
    let bv := valForDate b.endDate
    if av < bv then -1 * dir else if bv < av then 1 * dir else tieBreak a b

/-- `a` sorts no later than `b` under the sibling comparator. -/
def leRows (sf : SortField) (sd : SortDir) (a b : GanttRow) : Prop :=
  compareRows sf sd a b ≤ 0

instance leRowsDecidable (sf : SortField) (sd : SortDir) :
    DecidableRel (leRows sf sd) := fun a b => by
  unfold leRows; infer_instance

/-- `list.sort(compare)`: a stable sort by the sibling comparator. -/
def sortList (sf : SortField) (sd : SortDir) (l : List GanttRow) : List GanttRow :=
  List.insertionSort (leRows sf sd) l

/-- `childrenMap[pid]`: the rows whose `parentId` is `pid`, in dataset
order (the source groups by `r.parentId || ""`; `parentId` is a plain
string here, and `"" || ""` is `""`). -/
def childrenOf (data : List GanttRow) (pid : String) : List GanttRow :=
  data.filter (fun r => r.parentId = pid)

/-- The milestone children attached to a row by `process`. -/
def milesOf (data : List GanttRow) (r : GanttRow) : List GanttRow :=
  (childrenOf data r.id).filter (fun k => isMile k)

/-- The non-milestone children of a row, sorted — the `taskKids` of
`process`. -/
def taskKidsOf (data : List GanttRow) (sf : SortField) (sd : SortDir)
    (r : GanttRow) : List GanttRow :=
  sortList sf sd ((childrenOf data r.id).filter (fun k => !(isMile k)))

/-- The recursive `process(row, level)` of `orderGanttRows`: push the row
(with its level and its milestone children), then recurse depth-first into
the sorted non-milestone children.  `fuel` bounds the recursion depth; see
the header comment. -/
def processRows (data : List GanttRow) (sf : SortField) (sd : SortDir) :
    Nat → GanttRow → Nat → List OutRow
  | 0, _, _ => []
  | fuel + 1, row, level =>
    ⟨row, level, milesOf data row⟩ ::
      (taskKidsOf data sf sd row).flatMap
        (fun c => processRows data sf sd fuel c (level + 1))

/-- The reserved host placeholder name filtered out up front. -/
def sentinel : String := "val"

/-- `this.props.data.filter((r) => r.name !== "val")`. -/
def filteredData (data0 : List GanttRow) : List GanttRow :=
  data0.filter (fun r => r.name ≠ sentinel)

/-- The roots: rows with empty `parentId` whose type is not milestone. -/
def rootsOf (data : List GanttRow) : List GanttRow :=
  (childrenOf data "").filter (fun r => !(isMile r))

/-- The body of `orderGanttRows` after the sentinel filter: sort the
roots and emit the depth-first ordering. -/
def orderCore (data : List GanttRow) (sf : SortField) (sd : SortDir) :
    List OutRow :=
  (sortList sf sd (rootsOf data)).flatMap
    (fun r => processRows data sf sd data.length r 0)

/-- `orderGanttRows` (source lines 391–445): filter the sentinel rows,
sort the roots, and emit the depth-first ordering. -/
def orderGanttRows (data0 : List GanttRow) (sf : SortField) (sd : SortDir) :
    List OutRow :=
  orderCore (filteredData data0) sf sd


/-! ## Comparator algebra

`compareRows` is the lexicographic combination of the (possibly
direction-flipped) primary key with the direction-independent tie-breaker;
this makes `leRows` a total preorder, which is what `Array.sort` requires
and what the sortedness lemmas below rest on. -/

/-- The tie-breaking relation induced by `tieBreak ≤ 0`. -/
def tieLe (a b : GanttRow) : Prop :=
  jsToLower a.name < jsToLower b.name ∨
    (jsToLower a.name = jsToLower b.name ∧ a.id ≤ b.id)

theorem tieBreak_nonpos_iff (a b : GanttRow) : tieBreak a b ≤ 0 ↔ tieLe a b := by
  simp only [tieBreak, tieLe]
  by_cases h1 : jsToLower a.name < jsToLower b.name
  · rw [if_pos h1]
    exact ⟨fun _ => Or.inl h1, fun _ => by norm_num⟩
  · rw [if_neg h1]
    by_cases h2 : jsToLower b.name < jsToLower a.name
    · rw [if_pos h2]
      constructor
      · intro hc; norm_num at hc
      · rintro (hc | ⟨hc, _⟩)
        · exact absurd hc h1
        · rw [hc] at h2; exact absurd h2 (lt_irrefl _)
    · have heq := le_antisymm (not_lt.1 h2) (not_lt.1 h1)
      rw [if_neg h2]
      by_cases h3 : a.id < b.id
      · rw [if_pos h3]
        exact ⟨fun _ => Or.inr ⟨heq, le_of_lt h3⟩, fun _ => by norm_num⟩
      · rw [if_neg h3]
        by_cases h4 : b.id < a.id
        · rw [if_pos h4]
          constructor
          · intro hc; norm_num at hc
          · rintro (hc | ⟨_, hc⟩)
            · exact absurd hc h1
            · exact absurd h4 (not_lt.2 hc)
        · rw [if_neg h4]
          have hide := le_antisymm (not_lt.1 h4) (not_lt.1 h3)
          exact ⟨fun _ => Or.inr ⟨heq, le_of_eq hide⟩, fun _ => le_refl 0⟩

theorem tieLe_total (a b : GanttRow) : tieLe a b ∨ tieLe b a := by
  unfold tieLe
  rcases lt_trichotomy (jsToLower a.name) (jsToLower b.name) with h | h | h
  · exact Or.inl (Or.inl h)
  · rcases le_total a.id b.id with h2 | h2
    · exact Or.inl (Or.inr ⟨h, h2⟩)
    · exact Or.inr (Or.inr ⟨h.symm, h2⟩)
  · exact Or.inr (Or.inl h)

theorem tieLe_trans {a b c : GanttRow} (h1 : tieLe a b) (h2 : tieLe b c) : tieLe a c := by
  unfold tieLe at *
  rcases h1 with h1 | ⟨h1, h1'⟩ <;> rcases h2 with h2 | ⟨h2, h2'⟩
  · exact Or.inl (lt_trans h1 h2)
  · exact Or.inl (lt_of_lt_of_eq h1 h2)
  · exact Or.inl (lt_of_eq_of_lt h1 h2)
  · exact Or.inr ⟨h1.trans h2, h1'.trans h2'⟩

/-- Direction as a Boolean. -/
def isDesc : SortDir → Bool
  | SortDir.asc => false
  | SortDir.desc => true

/-- The abstract shape of `compareRows ≤ 0`: primary key strictly first
(flipped when descending), tie-breaker on primary-key ties. -/
def keyRel {k : Type} [LinearOrder k] (key : GanttRow → k) (desc : Bool)
    (a b : GanttRow) : Prop :=
  match desc with
  | true => key b < key a ∨ (key a = key b ∧ tieLe a b)
  | false => key a < key b ∨ (key a = key b ∧ tieLe a b)

theorem keyRel_total {k : Type} [LinearOrder k] (key : GanttRow → k) (desc : Bool)
    (a b : GanttRow) : keyRel key desc a b ∨ keyRel key desc b a := by
  cases desc <;> simp only [keyRel] <;>
    rcases lt_trichotomy (key a) (key b) with h | h | h
  · exact Or.inl (Or.inl h)
  · rcases tieLe_total a b with h2 | h2
    · exact Or.inl (Or.inr ⟨h, h2⟩)
    · exact Or.inr (Or.inr ⟨h.symm, h2⟩)
  · exact Or.inr (Or.inl h)
  · exact Or.inr (Or.inl h)
  · rcases tieLe_total a b with h2 | h2
    · exact Or.inl (Or.inr ⟨h, h2⟩)
    · exact Or.inr (Or.inr ⟨h.symm, h2⟩)
  · exact Or.inl (Or.inl h)

theorem keyRel_trans {k : Type} [LinearOrder k] (key : GanttRow → k) (desc : Bool)
    {a b c : GanttRow} (h1 : keyRel key desc a b) (h2 : keyRel key desc b c) :
    keyRel key desc a c := by
  cases desc <;> simp only [keyRel] at * <;>
    [rcases h1 with h1 | ⟨h1, h1'⟩ <;> rcases h2 with h2 | ⟨h2, h2'⟩;
     rcases h1 with h1 | ⟨h1, h1'⟩ <;> rcases h2 with h2 | ⟨h2, h2'⟩]
  · exact Or.inl (lt_trans h1 h2)
  · exact Or.inl (lt_of_lt_of_eq h1 h2)
  · exact Or.inl (lt_of_eq_of_lt h1 h2)
  · exact Or.inr ⟨h1.trans h2, tieLe_trans h1' h2'⟩
  · exact Or.inl (lt_trans h2 h1)
  · exact Or.inl (lt_of_eq_of_lt h2.symm h1)
  · exact Or.inl (lt_of_lt_of_eq h2 h1.symm)
  · exact Or.inr ⟨h1.trans h2, tieLe_trans h1' h2'⟩

theorem leRows_iff (sf : SortField) (sd : SortDir) (a b : GanttRow) :
    leRows sf sd a b ↔
      (match sf with
      | SortField.name => keyRel (fun r => jsToLower r.name) (isDesc sd) a b
      | SortField.startDate => keyRel (fun r => valForDate r.startDate) (isDesc sd) a b
      | SortField.endDate => keyRel (fun r => valForDate r.endDate) (isDesc sd) a b) := by
  have htie := tieBreak_nonpos_iff a b
  cases sf <;> cases sd <;>
      simp only [leRows, compareRows, keyRel, isDesc, eq_self_iff_true, if_true,
        reduceCtorEq, if_false] <;>
    first
    | -- ascending shape: primary ifs carry `-1 * 1` / `1 * 1`
      (split_ifs with h1 h2
       · exact ⟨fun _ => Or.inl h1, fun _ => by norm_num⟩
       · constructor
         · intro hc; norm_num at hc
         · rintro (hc | ⟨hc, _⟩)
           · exact absurd hc h1
           · rw [hc] at h2; exact absurd h2 (lt_irrefl _)
       · have heq := le_antisymm (not_lt.1 h2) (not_lt.1 h1)
         rw [tieBreak_nonpos_iff]
         constructor
         · intro ht; exact Or.inr ⟨heq, ht⟩
         · rintro (hc | ⟨_, ht⟩)
           · exact absurd hc h1
           · exact ht)
    | -- descending shape: primary ifs carry `-1 * -1` / `1 * -1`
      (split_ifs with h1 h2
       · constructor
         · intro hc; norm_num at hc
         · rintro (hc | ⟨hc, _⟩)
           · exact absurd hc (asymm h1)
           · rw [hc] at h1; exact absurd h1 (lt_irrefl _)
       · exact ⟨fun _ => Or.inl h2, fun _ => by norm_num⟩
       · have heq := le_antisymm (not_lt.1 h2) (not_lt.1 h1)
         rw [tieBreak_nonpos_iff]
         constructor
         · intro ht; exact Or.inr ⟨heq, ht⟩
         · rintro (hc | ⟨_, ht⟩)
           · exact absurd hc h2
           · exact ht)

theorem leRows_total (sf : SortField) (sd : SortDir) (a b : GanttRow) :
    leRows sf sd a b ∨ leRows sf sd b a := by
  rw [leRows_iff, leRows_iff]
  cases sf <;> exact keyRel_total _ _ a b

theorem leRows_trans {sf : SortField} {sd : SortDir} {a b c : GanttRow}
    (h1 : leRows sf sd a b) (h2 : leRows sf sd b c) : leRows sf sd a c := by
  rw [leRows_iff] at h1 h2 ⊢
  cases sf
  · exact keyRel_trans _ _ h1 h2
  · exact keyRel_trans _ _ h1 h2
  · exact keyRel_trans _ _ h1 h2

instance leRowsIsTotal (sf : SortField) (sd : SortDir) :
    IsTotal GanttRow (leRows sf sd) := ⟨leRows_total sf sd⟩

instance leRowsIsTrans (sf : SortField) (sd : SortDir) :
    IsTrans GanttRow (leRows sf sd) := ⟨fun _ _ _ => leRows_trans⟩

theorem sortList_perm (sf : SortField) (sd : SortDir) (l : List GanttRow) :
    List.Perm (sortList sf sd l) l :=
  List.perm_insertionSort _ l

theorem mem_sortList {sf : SortField} {sd : SortDir} {l : List GanttRow}
    {a : GanttRow} : a ∈ sortList sf sd l ↔ a ∈ l :=
  (sortList_perm sf sd l).mem_iff

theorem sortList_sorted (sf : SortField) (sd : SortDir) (l : List GanttRow) :
    (sortList sf sd l).Sorted (leRows sf sd) :=
  List.sorted_insertionSort _ l

theorem sortList_nodup {sf : SortField} {sd : SortDir} {l : List GanttRow}
    (h : l.Nodup) : (sortList sf sd l).Nodup :=
  ((sortList_perm sf sd l).nodup_iff).2 h

/-! ## Membership characterizations -/

theorem mem_childrenOf {data : List GanttRow} {pid : String} {c : GanttRow} :
    c ∈ childrenOf data pid ↔ c ∈ data ∧ c.parentId = pid := by
  simp [childrenOf]

theorem mem_taskKidsOf {data : List GanttRow} {sf : SortField} {sd : SortDir}
    {r c : GanttRow} :
    c ∈ taskKidsOf data sf sd r ↔
      c ∈ data ∧ c.parentId = r.id ∧ isMile c = false := by
  unfold taskKidsOf
  rw [mem_sortList]
  simp [mem_childrenOf, and_assoc]

theorem mem_rootsOf {data : List GanttRow} {r : GanttRow} :
    r ∈ rootsOf data ↔ r ∈ data ∧ r.parentId = "" ∧ isMile r = false := by
  simp [rootsOf, mem_childrenOf, and_assoc]

theorem mem_filteredData {data0 : List GanttRow} {r : GanttRow} :
    r ∈ filteredData data0 ↔ r ∈ data0 ∧ r.name ≠ sentinel := by
  simp [filteredData]

/-! ## Descendant chains

`DescN data n r x` says `x` lies `n` parent-steps below `r` inside
`data`, along non-milestone rows — exactly the paths the depth-first
`process` recursion can take from `r` to `x`. -/

inductive DescN (data : List GanttRow) : Nat → GanttRow → GanttRow → Prop where
  | refl (r : GanttRow) : DescN data 0 r r
  | step {n : Nat} {r : GanttRow} (p : GanttRow) {x : GanttRow}
      (h : DescN data n r p) (hx : x ∈ data) (hpid : x.parentId = p.id)
      (hm : isMile x = false) : DescN data (n + 1) r x

theorem descN_zero {data : List GanttRow} {a b : GanttRow}
    (h : DescN data 0 a b) : a = b := by cases h; rfl

theorem descN_bot_mem {data : List GanttRow} {n : Nat} {a b : GanttRow}
    (h : DescN data (n + 1) a b) : b ∈ data := by cases h; assumption

theorem descN_mem_of_base {data : List GanttRow} {n : Nat} {a b : GanttRow}
    (h : DescN data n a b) (ha : a ∈ data) : b ∈ data := by
  cases h with
  | refl => exact ha
  | step p _ hx _ _ => exact hx

theorem descN_trans {data : List GanttRow} {m n : Nat} {a b c : GanttRow}
    (h1 : DescN data m a b) (h2 : DescN data n b c) : DescN data (m + n) a c := by
  induction h2 with
  | refl r => exact h1
  | step p h hx hpid hm ih => exact DescN.step p (ih h1) hx hpid hm

theorem descN_split {data : List GanttRow} {m n : Nat} {a c : GanttRow}
    (h : DescN data (m + n) a c) : ∃ b, DescN data m a b ∧ DescN data n b c := by
  induction n generalizing c with
  | zero => exact ⟨c, h, DescN.refl c⟩
  | succ n ih =>
    cases h with
    | step p h hx hpid hm =>
      obtain ⟨b, hb1, hb2⟩ := ih h
      exact ⟨b, hb1, DescN.step p hb2 hx hpid hm⟩

/-- Walking up the parent links is deterministic when row ids are
duplicate-free: two rows sitting the same number of steps above the same
row coincide. -/
theorem descN_det {data : List GanttRow}
    (hid : (data.map (fun r => r.id)).Nodup) :
    ∀ {n : Nat} {a b x : GanttRow}, a ∈ data → b ∈ data →
      DescN data n a x → DescN data n b x → a = b := by
  intro n
  induction n with
  | zero =>
    intro a b x _ _ h1 h2
    exact (descN_zero h1).trans (descN_zero h2).symm
  | succ n ih =>
    intro a b x ha hb h1 h2
    cases h1 with
    | step p h1' hx1 hp1 hm1 =>
      cases h2 with
      | step q h2' hx2 hp2 hm2 =>
        have hpmem : p ∈ data := descN_mem_of_base h1' ha
        have hqmem : q ∈ data := descN_mem_of_base h2' hb
        have hpq : p = q :=
          List.inj_on_of_nodup_map hid hpmem hqmem (by rw [← hp1, ← hp2])
        subst hpq
        exact ih ha hb h1' h2'

theorem descN_mul {data : List GanttRow} {k : Nat} {r : GanttRow}
    (h : DescN data k r r) : ∀ m, DescN data (k * m) r r
  | 0 => by rw [Nat.mul_zero]; exact DescN.refl r
  | m + 1 => by rw [Nat.mul_succ]; exact descN_trans (descN_mul h m) h

/-! ## Rooted chains and reachability -/

/-- `RootedChain data r c` records a concrete ancestor chain of `r`:
`c = [p₁, p₂, …]` climbs from `r`'s parent up to a root. -/
inductive RootedChain (data : List GanttRow) : GanttRow → List GanttRow → Prop where
  | root {r : GanttRow} (hmem : r ∈ data) (hp : r.parentId = "")
      (hm : isMile r = false) : RootedChain data r []
  | step {r p : GanttRow} {c : List GanttRow} (hc : RootedChain data p c)
      (hmem : r ∈ data) (hpid : r.parentId = p.id) (hm : isMile r = false) :
      RootedChain data r (p :: c)

/-- A row is reachable for the depth-first traversal iff it has a rooted
ancestor chain. -/
def Reach (data : List GanttRow) (r : GanttRow) : Prop :=
  ∃ c, RootedChain data r c

theorem rootedChain_mem {data : List GanttRow} {r : GanttRow} {c : List GanttRow}
    (h : RootedChain data r c) : r ∈ data := by
  cases h with
  | root hmem _ _ => exact hmem
  | step _ hmem _ _ => exact hmem

theorem rootedChain_nonmile {data : List GanttRow} {r : GanttRow} {c : List GanttRow}
    (h : RootedChain data r c) : isMile r = false := by
  cases h with
  | root _ _ hm => exact hm
  | step _ _ _ hm => exact hm

theorem rootedChain_subset {data : List GanttRow} {r : GanttRow} {c : List GanttRow}
    (h : RootedChain data r c) : ∀ x ∈ (r :: c), x ∈ data := by
  induction h with
  | root hmem _ _ =>
    intro x hx
    rw [List.mem_singleton] at hx
    rw [hx]; exact hmem
  | step hc hmem hpid hm ih =>
    intro x hx
    rcases List.mem_cons.1 hx with h' | h'
    · rw [h']; exact hmem
    · exact ih x h'

theorem reach_mem {data : List GanttRow} {r : GanttRow} (h : Reach data r) :
    r ∈ data := by
  obtain ⟨c, hc⟩ := h
  exact rootedChain_mem hc

theorem reach_nonmile {data : List GanttRow} {r : GanttRow} (h : Reach data r) :
    isMile r = false := by
  obtain ⟨c, hc⟩ := h
  exact rootedChain_nonmile hc

theorem reach_child {data : List GanttRow} {p c : GanttRow} (h : Reach data p)
    (hc : c ∈ data) (hpid : c.parentId = p.id) (hm : isMile c = false) :
    Reach data c := by
  obtain ⟨ch, hch⟩ := h
  exact ⟨p :: ch, RootedChain.step hch hc hpid hm⟩

theorem rootedChain_descN {data : List GanttRow} {r : GanttRow} {c : List GanttRow}
    (h : RootedChain data r c) :
    ∃ rt, rt ∈ data ∧ rt.parentId = "" ∧ DescN data c.length rt r := by
  induction h with
  | root hmem hp hm => exact ⟨_, hmem, hp, DescN.refl _⟩
  | step hc hmem hpid hm ih =>
    obtain ⟨rt, hrt1, hrt2, hrt3⟩ := ih
    exact ⟨rt, hrt1, hrt2, DescN.step _ hrt3 hmem hpid hm⟩

theorem rootedChain_suffix {data : List GanttRow} {r : GanttRow} {c : List GanttRow}
    (h : RootedChain data r c) :
    ∀ y ∈ (r :: c), ∃ cy, RootedChain data y cy ∧ (y :: cy).Sublist (r :: c) := by
  induction h with
  | root hmem hp hm =>
    intro y hy
    rw [List.mem_singleton] at hy
    subst hy
    exact ⟨[], RootedChain.root hmem hp hm, List.Sublist.refl _⟩
  | @step r' p' c' hc hmem hpid hm ih =>
    intro y hy
    rcases List.mem_cons.1 hy with h' | h'
    · subst h'
      exact ⟨p' :: c', RootedChain.step hc hmem hpid hm, List.Sublist.refl _⟩
    · obtain ⟨cy, hcy1, hcy2⟩ := ih y h'
      exact ⟨cy, hcy1, hcy2.cons _⟩

/-- Any rooted chain can be shortened to a duplicate-free one. -/
theorem rootedChain_shorten {data : List GanttRow} {r : GanttRow} {c : List GanttRow}
    (h : RootedChain data r c) :
    ∃ c', RootedChain data r c' ∧ (r :: c').Nodup := by
  induction h with
  | root hmem hp hm =>
    exact ⟨[], RootedChain.root hmem hp hm, List.nodup_singleton _⟩
  | @step r' p' c' hc hmem hpid hm ih =>
    obtain ⟨c0, hc0, hnd0⟩ := ih
    by_cases hr : r' ∈ p' :: c0
    · obtain ⟨cy, hcy1, hcy2⟩ := rootedChain_suffix hc0 r' hr
      exact ⟨cy, hcy1, hcy2.nodup hnd0⟩
    · exact ⟨p' :: c0, RootedChain.step hc0 hmem hpid hm,
        List.nodup_cons.2 ⟨hr, hnd0⟩⟩

/-- A duplicate-free list of rows of `data` is no longer than `data`. -/
theorem nodup_length_le {l data : List GanttRow} (hn : l.Nodup)
    (hs : ∀ x ∈ l, x ∈ data) : l.length ≤ data.length := by
  calc l.length = l.toFinset.card := (List.toFinset_card_of_nodup hn).symm
    _ ≤ data.toFinset.card := by
        apply Finset.card_le_card
        intro x hx
        rw [List.mem_toFinset] at hx ⊢
        exact hs x hx
    _ ≤ data.length := List.toFinset_card_le data

/-! ## Soundness of the traversal -/

theorem proc_head_mem {data : List GanttRow} {sf : SortField} {sd : SortDir}
    {fuel : Nat} {r : GanttRow} {lvl : Nat} (h : 0 < fuel) :
    (⟨r, lvl, milesOf data r⟩ : OutRow) ∈ processRows data sf sd fuel r lvl := by
  cases fuel with
  | zero => exact absurd h (lt_irrefl 0)
  | succ n => exact List.mem_cons_self _ _

theorem proc_child_subset {data : List GanttRow} {sf : SortField} {sd : SortDir}
    {fuel : Nat} {r c : GanttRow} {lvl : Nat} {o : OutRow}
    (hc : c ∈ data) (hpid : c.parentId = r.id) (hm : isMile c = false)
    (ho : o ∈ processRows data sf sd fuel c (lvl + 1)) :
    o ∈ processRows data sf sd (fuel + 1) r lvl := by
  apply List.mem_cons_of_mem
  exact List.mem_flatMap.2 ⟨c, mem_taskKidsOf.2 ⟨hc, hpid, hm⟩, ho⟩

theorem descN_nonmile {data : List GanttRow} {n : Nat} {r x : GanttRow}
    (h : DescN data n r x) (hr : isMile r = false) : isMile x = false := by
  cases h with
  | refl => exact hr
  | step p _ _ _ hm => exact hm

theorem descN_reach {data : List GanttRow} {n : Nat} {a x : GanttRow}
    (ha : Reach data a) (h : DescN data n a x) : Reach data x := by
  induction h with
  | refl r => exact ha
  | step p h hx hpid hm ih => exact reach_child (ih ha) hx hpid hm

/-- Everything `process` emits below `r` lies on a descendant chain from
`r`, carries `r`'s computed milestone list for its own row, and sits at
depth at least `lvl`. -/
theorem proc_sound {data : List GanttRow} {sf : SortField} {sd : SortDir} :
    ∀ {fuel : Nat} {r : GanttRow} {lvl : Nat} {o : OutRow},
      o ∈ processRows data sf sd fuel r lvl →
        (∃ n, DescN data n r o.row) ∧ o.milestones = milesOf data o.row ∧
          lvl ≤ o.level ∧ (o.row = r ∨ o.row ∈ data) := by
  intro fuel
  induction fuel with
  | zero => intro r lvl o ho; simp [processRows] at ho
  | succ fuel ih =>
    intro r lvl o ho
    simp only [processRows] at ho
    rcases List.mem_cons.1 ho with h | h
    · subst h
      exact ⟨⟨0, DescN.refl r⟩, rfl, le_refl _, Or.inl rfl⟩
    · obtain ⟨c, hcmem, ho'⟩ := List.mem_flatMap.1 h
      obtain ⟨hc, hpid, hm⟩ := mem_taskKidsOf.1 hcmem
      obtain ⟨⟨n, hdesc⟩, hmiles, hlvl, hmem⟩ := ih ho'
      have hstep : DescN data 1 r c := DescN.step r (DescN.refl r) hc hpid hm
      refine ⟨⟨1 + n, descN_trans hstep hdesc⟩, hmiles, ?_, ?_⟩
      · omega
      · rcases hmem with h' | h'
        · rw [h']; exact Or.inr hc
        · exact Or.inr h'

/-- The only entry of a `process` call at its own level is its head. -/
theorem proc_filter_level {data : List GanttRow} {sf : SortField} {sd : SortDir}
    {fuel : Nat} {r : GanttRow} {lvl : Nat} :
    (processRows data sf sd (fuel + 1) r lvl).filter (fun o => o.level = lvl)
      = [⟨r, lvl, milesOf data r⟩] := by
  simp only [processRows]
  rw [List.filter_cons]
  have hhead : (decide ((⟨r, lvl, milesOf data r⟩ : OutRow).level = lvl)) = true := by
    simp
  rw [if_pos hhead]
  have hrest : ((taskKidsOf data sf sd r).flatMap
      (fun c => processRows data sf sd fuel c (lvl + 1))).filter
        (fun o => o.level = lvl) = [] := by
    rw [List.filter_eq_nil_iff]
    intro o ho
    obtain ⟨c, hcmem, ho'⟩ := List.mem_flatMap.1 ho
    have := (proc_sound ho').2.2.1
    simp only [decide_eq_true_eq]
    omega
  rw [hrest]

/-! ## Completeness of the traversal -/

theorem proc_contained {data : List GanttRow} {sf : SortField} {sd : SortDir} :
    ∀ {r : GanttRow} {c : List GanttRow}, RootedChain data r c → (r :: c).Nodup →
      ∃ lvl fuel, data.length ≤ fuel + c.length ∧
        ∀ o ∈ processRows data sf sd fuel r lvl, o ∈ orderCore data sf sd := by
  intro r c h
  induction h with
  | @root r' hmem hp hm =>
    intro _
    refine ⟨0, data.length, by omega, fun o ho => ?_⟩
    exact List.mem_flatMap.2 ⟨r', mem_sortList.2 (mem_rootsOf.2 ⟨hmem, hp, hm⟩), ho⟩
  | @step r' p' c' hc hmem hpid hm ih =>
    intro hnd
    obtain ⟨lvl, fuelP, hge, hcontain⟩ := ih (List.Nodup.of_cons hnd)
    have hlen : c'.length + 2 ≤ data.length := by
      have h2 := nodup_length_le hnd
        (rootedChain_subset (RootedChain.step hc hmem hpid hm))
      simpa using h2
    obtain ⟨fuel, rfl⟩ : ∃ f, fuelP = f + 1 := ⟨fuelP - 1, by omega⟩
    refine ⟨lvl + 1, fuel, by simp; omega, fun o ho => ?_⟩
    exact hcontain _ (proc_child_subset hmem hpid hm ho)

/-- Every reachable row is emitted by `orderCore` (with fuel
`data.length`): reachability has duplicate-free ancestor chains, whose
length bounds the recursion depth. -/
theorem reach_mem_orderCore {data : List GanttRow} {sf : SortField}
    {sd : SortDir} {r : GanttRow} (h : Reach data r) :
    ∃ lvl, (⟨r, lvl, milesOf data r⟩ : OutRow) ∈ orderCore data sf sd := by
  obtain ⟨c0, hc0⟩ := h
  obtain ⟨c, hc, hnd⟩ := rootedChain_shorten hc0
  obtain ⟨lvl, fuel, hge, hcontain⟩ := proc_contained hc hnd
  have hlen : c.length + 1 ≤ data.length := by
    have h2 := nodup_length_le hnd (rootedChain_subset hc)
    simpa using h2
  have hfuel : 0 < fuel := by omega
  exact ⟨lvl, hcontain _ (proc_head_mem hfuel)⟩

/-! ## Soundness of `orderCore` -/

theorem orderCore_elim {data : List GanttRow} {sf : SortField} {sd : SortDir}
    {o : OutRow} (ho : o ∈ orderCore data sf sd) :
    ∃ rt n, rt ∈ rootsOf data ∧ DescN data n rt o.row ∧
      o.milestones = milesOf data o.row := by
  obtain ⟨rt, hrt, ho'⟩ := List.mem_flatMap.1 ho
  obtain ⟨⟨n, hdesc⟩, hmiles, _, _⟩ := proc_sound ho'
  exact ⟨rt, n, mem_sortList.1 hrt, hdesc, hmiles⟩

theorem orderCore_reach {data : List GanttRow} {sf : SortField} {sd : SortDir}
    {o : OutRow} (ho : o ∈ orderCore data sf sd) : Reach data o.row := by
  obtain ⟨rt, n, hrt, hdesc, _⟩ := orderCore_elim ho
  obtain ⟨hmem, hp, hm⟩ := mem_rootsOf.1 hrt
  exact descN_reach ⟨[], RootedChain.root hmem hp hm⟩ hdesc

theorem orderCore_nonmile {data : List GanttRow} {sf : SortField} {sd : SortDir}
    {o : OutRow} (ho : o ∈ orderCore data sf sd) : isMile o.row = false :=
  reach_nonmile (orderCore_reach ho)

theorem orderCore_row_mem {data : List GanttRow} {sf : SortField} {sd : SortDir}
    {o : OutRow} (ho : o ∈ orderCore data sf sd) : o.row ∈ data :=
  reach_mem (orderCore_reach ho)

theorem orderCore_miles {data : List GanttRow} {sf : SortField} {sd : SortDir}
    {o : OutRow} (ho : o ∈ orderCore data sf sd) :
    o.milestones = milesOf data o.row :=
  (orderCore_elim ho).choose_spec.choose_spec.2.2

/-- The level-0 entries of the ordering are exactly the sorted roots. -/
theorem orderCore_filter_level0 {data : List GanttRow} {sf : SortField} {sd : SortDir} :
    ((orderCore data sf sd).filter (fun o => o.level = 0)).map (fun o => o.row)
      = sortList sf sd (rootsOf data) := by
  unfold orderCore
  rw [List.filter_flatMap, List.map_flatMap]
  have hpt : ∀ r ∈ sortList sf sd (rootsOf data),
      ((processRows data sf sd data.length r 0).filter
        (fun o => o.level = 0)).map (fun o => o.row) = [r] := by
    intro r hr
    have hmem : r ∈ data := (mem_rootsOf.1 (mem_sortList.1 hr)).1
    obtain ⟨k, hk⟩ : ∃ k, data.length = k + 1 := by
      cases hdl : data.length with
      | zero =>
        rw [List.length_eq_zero] at hdl
        rw [hdl] at hmem
        exact absurd hmem (List.not_mem_nil r)
      | succ k => exact ⟨k, rfl⟩
    rw [hk, proc_filter_level]
    rfl
  calc (sortList sf sd (rootsOf data)).flatMap
        (fun r => ((processRows data sf sd data.length r 0).filter
          (fun o => o.level = 0)).map (fun o => o.row))
      = (sortList sf sd (rootsOf data)).flatMap (fun r => [r]) :=
        List.flatMap_congr hpt
    _ = sortList sf sd (rootsOf data) := List.flatMap_singleton' _

/-! ## Uniqueness of visits

Under the realistic hypotheses that row ids are pairwise distinct and no
row has the empty id, the reachable part of the parent/child graph is a
forest: no reachable row lies on a nontrivial descendant cycle, distinct
roots have disjoint subtrees, and distinct siblings have disjoint
subtrees.  Consequently `orderCore` emits every row at most once. -/

theorem reach_no_cycle {data : List GanttRow}
    (hid : (data.map (fun r => r.id)).Nodup)
    (hne : ∀ p ∈ data, p.id ≠ "") {r : GanttRow} {k : Nat}
    (hr : Reach data r) (hk : DescN data k r r) : k = 0 := by
  by_contra hk0
  have hk1 : 1 ≤ k := Nat.one_le_iff_ne_zero.2 hk0
  obtain ⟨c, hc⟩ := hr
  obtain ⟨rt, hrtmem, hrtp, hdesc⟩ := rootedChain_descN hc
  have hrmem : r ∈ data := rootedChain_mem hc
  have hge : c.length + 1 ≤ k * (c.length + 1) := by
    calc c.length + 1 = 1 * (c.length + 1) := (one_mul _).symm
      _ ≤ k * (c.length + 1) := Nat.mul_le_mul_right _ hk1
  have hpump : DescN data (k * (c.length + 1)) r r := descN_mul hk (c.length + 1)
  have hsplit : k * (c.length + 1) = (k * (c.length + 1) - c.length) + c.length := by
    omega
  rw [hsplit] at hpump
  obtain ⟨b, hb1, hb2⟩ := descN_split hpump
  have hbmem : b ∈ data := descN_mem_of_base hb1 hrmem
  have hbrt : rt = b := descN_det hid hrtmem hbmem hdesc hb2
  obtain ⟨j, hjj⟩ : ∃ j, k * (c.length + 1) - c.length = j + 1 :=
    ⟨k * (c.length + 1) - c.length - 1, by omega⟩
  rw [hjj] at hb1
  cases hb1 with
  | step p' h' hx hpid hm =>
    have hp'mem : p' ∈ data := descN_mem_of_base h' hrmem
    have hp'id : p'.id = "" := by rw [← hpid, ← hbrt]; exact hrtp
    exact hne p' hp'mem hp'id

/-- Two descendant chains to a common row can be composed into a chain
between their sources. -/
theorem desc_common_aux {data : List GanttRow}
    (hid : (data.map (fun r => r.id)).Nodup) {n1 n2 : Nat} {c1 c2 x : GanttRow}
    (hc1 : c1 ∈ data) (hc2 : c2 ∈ data) (hle : n1 ≤ n2)
    (h1 : DescN data n1 c1 x) (h2 : DescN data n2 c2 x) :
    DescN data (n2 - n1) c2 c1 := by
  have heq : n2 = (n2 - n1) + n1 := by omega
  rw [heq] at h2
  obtain ⟨b, hb1, hb2⟩ := descN_split h2
  have hbmem : b ∈ data := descN_mem_of_base hb1 hc2
  have hbc : b = c1 := descN_det hid hbmem hc1 hb2 h1
  rwa [hbc] at hb1

theorem roots_disjoint_aux {data : List GanttRow}
    (hid : (data.map (fun r => r.id)).Nodup)
    (hne : ∀ p ∈ data, p.id ≠ "") {r1 r2 x : GanttRow} {n1 n2 : Nat}
    (h1mem : r1 ∈ data) (h2mem : r2 ∈ data) (hp1 : r1.parentId = "")
    (hner : r1 ≠ r2) (hle : n1 ≤ n2)
    (h1 : DescN data n1 r1 x) (h2 : DescN data n2 r2 x) : False := by
  have hd := desc_common_aux hid h1mem h2mem hle h1 h2
  cases hn : n2 - n1 with
  | zero =>
    rw [hn] at hd
    exact hner (descN_zero hd).symm
  | succ j =>
    rw [hn] at hd
    cases hd with
    | step p' h' hx hpid hm =>
      have hp'mem : p' ∈ data := descN_mem_of_base h' h2mem
      exact hne p' hp'mem (by rw [← hpid]; exact hp1)

/-- Distinct roots have disjoint subtrees. -/
theorem roots_disjoint {data : List GanttRow}
    (hid : (data.map (fun r => r.id)).Nodup)
    (hne : ∀ p ∈ data, p.id ≠ "") {r1 r2 x : GanttRow} {n1 n2 : Nat}
    (h1mem : r1 ∈ data) (h2mem : r2 ∈ data) (hp1 : r1.parentId = "")
    (hp2 : r2.parentId = "") (hner : r1 ≠ r2)
    (h1 : DescN data n1 r1 x) (h2 : DescN data n2 r2 x) : False := by
  rcases le_total n1 n2 with hle | hle
  · exact roots_disjoint_aux hid hne h1mem h2mem hp1 hner hle h1 h2
  · exact roots_disjoint_aux hid hne h2mem h1mem hp2 hner.symm hle h2 h1

theorem sibling_disjoint_aux {data : List GanttRow}
    (hid : (data.map (fun r => r.id)).Nodup)
    (hne : ∀ p ∈ data, p.id ≠ "") {r c1 c2 x : GanttRow} {n1 n2 : Nat}
    (hr : Reach data r) (hc1 : c1 ∈ data) (hc2 : c2 ∈ data)
    (hpid1 : c1.parentId = r.id) (hpid2 : c2.parentId = r.id)
    (hm2 : isMile c2 = false) (hner : c1 ≠ c2) (hle : n1 ≤ n2)
    (h1 : DescN data n1 c1 x) (h2 : DescN data n2 c2 x) : False := by
  have hd := desc_common_aux hid hc1 hc2 hle h1 h2
  cases hn : n2 - n1 with
  | zero =>
    rw [hn] at hd
    exact hner (descN_zero hd).symm
  | succ j =>
    rw [hn] at hd
    cases hd with
    | step p' h' hx hpid hm =>
      have hp'mem : p' ∈ data := descN_mem_of_base h' hc2
      have hrmem : r ∈ data := reach_mem hr
      have hp'r : p' = r :=
        List.inj_on_of_nodup_map hid hp'mem hrmem (by rw [← hpid, hpid1])
      rw [hp'r] at h'
      have hstep : DescN data 1 r c2 := DescN.step r (DescN.refl r) hc2 hpid2 hm2
      have hcyc : DescN data (j + 1) c2 c2 := descN_trans h' hstep
      have := reach_no_cycle hid hne (reach_child hr hc2 hpid2 hm2) hcyc
      omega

/-- Distinct non-milestone siblings have disjoint subtrees. -/
theorem sibling_disjoint {data : List GanttRow}
    (hid : (data.map (fun r => r.id)).Nodup)
    (hne : ∀ p ∈ data, p.id ≠ "") {r c1 c2 x : GanttRow} {n1 n2 : Nat}
    (hr : Reach data r) (hc1 : c1 ∈ data) (hc2 : c2 ∈ data)
    (hpid1 : c1.parentId = r.id) (hpid2 : c2.parentId = r.id)
    (hm1 : isMile c1 = false) (hm2 : isMile c2 = false) (hner : c1 ≠ c2)
    (h1 : DescN data n1 c1 x) (h2 : DescN data n2 c2 x) : False := by
  rcases le_total n1 n2 with hle | hle
  · exact sibling_disjoint_aux hid hne hr hc1 hc2 hpid1 hpid2 hm2 hner hle h1 h2
  · exact sibling_disjoint_aux hid hne hr hc2 hc1 hpid2 hpid1 hm1 hner.symm hle h2 h1

theorem taskKidsOf_nodup {data : List GanttRow} {sf : SortField} {sd : SortDir}
    {r : GanttRow} (hid : (data.map (fun row => row.id)).Nodup) :
    (taskKidsOf data sf sd r).Nodup := by
  apply sortList_nodup
  exact ((List.Nodup.of_map _ hid).filter _).filter _

/-- With distinct, nonempty ids, a `process` call emits pairwise
distinct rows. -/
theorem proc_rows_nodup {data : List GanttRow} {sf : SortField} {sd : SortDir}
    (hid : (data.map (fun row => row.id)).Nodup)
    (hne : ∀ p ∈ data, p.id ≠ "") :
    ∀ {fuel : Nat} {r : GanttRow} {lvl : Nat}, Reach data r →
      ((processRows data sf sd fuel r lvl).map (fun o => o.row)).Nodup := by
  intro fuel
  induction fuel with
  | zero => intro r lvl _; simp [processRows]
  | succ fuel ih =>
    intro r lvl hr
    simp only [processRows, List.map_cons]
    rw [List.map_flatMap, List.nodup_cons]
    constructor
    · intro hmem
      obtain ⟨c, hcmem, hrmem⟩ := List.mem_flatMap.1 hmem
      obtain ⟨hc, hpid, hm⟩ := mem_taskKidsOf.1 hcmem
      obtain ⟨o, ho, hor⟩ := List.mem_map.1 hrmem
      obtain ⟨n, hdesc⟩ := (proc_sound ho).1
      rw [hor] at hdesc
      have hstep : DescN data 1 r c := DescN.step r (DescN.refl r) hc hpid hm
      have hcyc : DescN data (1 + n) r r := descN_trans hstep hdesc
      have := reach_no_cycle hid hne hr hcyc
      omega
    · rw [List.nodup_flatMap]
      constructor
      · intro c hcmem
        obtain ⟨hc, hpid, hm⟩ := mem_taskKidsOf.1 hcmem
        exact ih (reach_child hr hc hpid hm)
      · apply List.Pairwise.imp_of_mem ?_ (taskKidsOf_nodup hid)
        intro c1 c2 hc1mem hc2mem hner
        obtain ⟨hc1, hpid1, hm1⟩ := mem_taskKidsOf.1 hc1mem
        obtain ⟨hc2, hpid2, hm2⟩ := mem_taskKidsOf.1 hc2mem
        intro x hx1 hx2
        obtain ⟨o1, ho1, ho1x⟩ := List.mem_map.1 hx1
        obtain ⟨o2, ho2, ho2x⟩ := List.mem_map.1 hx2
        obtain ⟨n1, hd1⟩ := (proc_sound ho1).1
        obtain ⟨n2, hd2⟩ := (proc_sound ho2).1
        rw [ho1x] at hd1
        rw [ho2x] at hd2
        exact sibling_disjoint hid hne hr hc1 hc2 hpid1 hpid2 hm1 hm2 hner hd1 hd2

theorem rootsOf_nodup {data : List GanttRow}
    (hid : (data.map (fun row => row.id)).Nodup) : (rootsOf data).Nodup :=
  ((List.Nodup.of_map _ hid).filter _).filter _

/-- With distinct, nonempty ids, the ordering emits pairwise distinct
rows. -/
theorem orderCore_rows_nodup {data : List GanttRow} {sf : SortField} {sd : SortDir}
    (hid : (data.map (fun row => row.id)).Nodup)
    (hne : ∀ p ∈ data, p.id ≠ "") :
    ((orderCore data sf sd).map (fun o => o.row)).Nodup := by
  unfold orderCore
  rw [List.map_flatMap, List.nodup_flatMap]
  constructor
  · intro rt hrt
    obtain ⟨hmem, hp, hm⟩ := mem_rootsOf.1 (mem_sortList.1 hrt)
    exact proc_rows_nodup hid hne ⟨[], RootedChain.root hmem hp hm⟩
  · apply List.Pairwise.imp_of_mem ?_ (sortList_nodup (rootsOf_nodup hid))
    intro r1 r2 h1mem h2mem hner
    obtain ⟨h1m, hp1, _⟩ := mem_rootsOf.1 (mem_sortList.1 h1mem)
    obtain ⟨h2m, hp2, _⟩ := mem_rootsOf.1 (mem_sortList.1 h2mem)
    intro x hx1 hx2
    obtain ⟨o1, ho1, ho1x⟩ := List.mem_map.1 hx1
    obtain ⟨o2, ho2, ho2x⟩ := List.mem_map.1 hx2
    obtain ⟨n1, hd1⟩ := (proc_sound ho1).1
    obtain ⟨n2, hd2⟩ := (proc_sound ho2).1
    rw [ho1x] at hd1
    rw [ho2x] at hd2
    exact roots_disjoint hid hne h1m h2m hp1 hp2 hner hd1 hd2

/-- With distinct, nonempty ids, the ordering's row ids are pairwise
distinct. -/
theorem orderCore_ids_nodup {data : List GanttRow} {sf : SortField} {sd : SortDir}
    (hid : (data.map (fun row => row.id)).Nodup)
    (hne : ∀ p ∈ data, p.id ≠ "") :
    ((orderCore data sf sd).map (fun o => o.row.id)).Nodup := by
  have h1 := @orderCore_rows_nodup data sf sd hid hne
  have heq : (orderCore data sf sd).map (fun o => o.row.id)
      = ((orderCore data sf sd).map (fun o => o.row)).map (fun row => row.id) := by
    rw [List.map_map]
    rfl
  rw [heq]
  apply List.Nodup.map_on ?_ h1
  intro x hx y hy hxy
  obtain ⟨o1, ho1, ho1x⟩ := List.mem_map.1 hx
  obtain ⟨o2, ho2, ho2x⟩ := List.mem_map.1 hy
  have hx1 : x ∈ data := by rw [← ho1x]; exact orderCore_row_mem ho1
  have hy1 : y ∈ data := by rw [← ho2x]; exact orderCore_row_mem ho2
  exact List.inj_on_of_nodup_map hid hx1 hy1 hxy

/-! ## Relative order of same-parent rows in the output -/

theorem pairwise_flatMap_intro {α β : Type} {P : β → β → Prop} {l : List α}
    {f : α → List β} (hEach : ∀ a ∈ l, (f a).Pairwise P)
    (hCross : l.Pairwise (fun a b => ∀ x ∈ f a, ∀ y ∈ f b, P x y)) :
    (l.flatMap f).Pairwise P := by
  induction l with
  | nil => simp
  | cons a l ih =>
    rw [List.flatMap_cons, List.pairwise_append]
    obtain ⟨hca, hcl⟩ := List.pairwise_cons.1 hCross
    refine ⟨hEach a (List.mem_cons_self _ _),
      ih (fun b hb => hEach b (List.mem_cons_of_mem _ hb)) hcl, ?_⟩
    intro x hx y hy
    obtain ⟨b, hb, hyb⟩ := List.mem_flatMap.1 hy
    exact hca b hb x hx y hyb

/-- Within one `process` subtree, any two emitted rows with equal
`parentId` are siblings from the same sorted `taskKids` list, so any
consequence `Q` of the comparator relation holds between them. -/
theorem proc_pairwise {data : List GanttRow} {sf : SortField} {sd : SortDir}
    (hid : (data.map (fun row => row.id)).Nodup)
    (hne : ∀ p ∈ data, p.id ≠ "") {Q : GanttRow → GanttRow → Prop}
    (hQ : ∀ a b, a ∈ data → b ∈ data → leRows sf sd a b → Q a b) :
    ∀ {fuel : Nat} {r : GanttRow} {lvl : Nat}, Reach data r →
      (processRows data sf sd fuel r lvl).Pairwise
        (fun o1 o2 => o1.row.parentId = o2.row.parentId → Q o1.row o2.row) := by
  intro fuel
  induction fuel with
  | zero => intro r lvl _; simp [processRows]
  | succ fuel ih =>
    intro r lvl hr
    simp only [processRows]
    rw [List.pairwise_cons]
    have hrmem : r ∈ data := reach_mem hr
    have hrmile : isMile r = false := reach_nonmile hr
    constructor
    · intro o2 ho2 hpp
      exfalso
      obtain ⟨c, hcmem, ho2'⟩ := List.mem_flatMap.1 ho2
      obtain ⟨hc, hpid, hmC⟩ := mem_taskKidsOf.1 hcmem
      obtain ⟨n2, hd2⟩ := (proc_sound ho2').1
      cases hd2 with
      | refl =>
        have hcyc : DescN data 1 r r :=
          DescN.step r (DescN.refl r) hrmem (by rw [hpp, hpid]) hrmile
        have := reach_no_cycle hid hne hr hcyc
        omega
      | step y hd2' hy hpidy hmy =>
        have hymem : y ∈ data := descN_mem_of_base hd2' hc
        obtain ⟨cc, hcc⟩ := hr
        cases hcc with
        | root hmem2 hp2 hm2 =>
          exact hne y hymem (by rw [← hpidy, ← hpp]; exact hp2)
        | @step _ pp ccc hcp hmem2 hpid2 hm2 =>
          have hppmem : pp ∈ data := rootedChain_mem hcp
          have hypp : y = pp :=
            List.inj_on_of_nodup_map hid hymem hppmem
              (by rw [← hpidy, ← hpp, hpid2])
          rw [hypp] at hd2'
          have hs1 : DescN data 1 pp r :=
            DescN.step pp (DescN.refl pp) hrmem hpid2 hrmile
          have hs2 : DescN data 1 r c := DescN.step r (DescN.refl r) hc hpid hmC
          have hcyc := descN_trans (descN_trans hs1 hs2) hd2'
          have := reach_no_cycle hid hne ⟨ccc, hcp⟩ hcyc
          omega
    · apply pairwise_flatMap_intro
      · intro c hcmem
        obtain ⟨hc, hpid, hm⟩ := mem_taskKidsOf.1 hcmem
        exact ih (reach_child hr hc hpid hm)
      · have hsorted : (taskKidsOf data sf sd r).Pairwise (leRows sf sd) :=
          sortList_sorted sf sd _
        apply List.Pairwise.imp_of_mem ?_ (hsorted.and (taskKidsOf_nodup hid))
        rintro c1 c2 hc1mem hc2mem ⟨hle12, hne12⟩
        obtain ⟨hc1, hpid1, hm1⟩ := mem_taskKidsOf.1 hc1mem
        obtain ⟨hc2, hpid2, hm2⟩ := mem_taskKidsOf.1 hc2mem
        intro o1 ho1 o2 ho2 hpp
        obtain ⟨n1, hd1⟩ := (proc_sound ho1).1
        obtain ⟨n2, hd2⟩ := (proc_sound ho2).1
        cases hd1 with
        | refl =>
          cases hd2 with
          | refl => exact hQ _ _ hc1 hc2 hle12
          | step w hd2' hw hpidw hmw =>
            exfalso
            have hwmem : w ∈ data := descN_mem_of_base hd2' hc2
            have hwr : w = r :=
              List.inj_on_of_nodup_map hid hwmem hrmem
                (by rw [← hpidw, ← hpp, hpid1])
            rw [hwr] at hd2'
            have hs2 : DescN data 1 r c2 :=
              DescN.step r (DescN.refl r) hc2 hpid2 hm2
            have := reach_no_cycle hid hne hr (descN_trans hs2 hd2')
            omega
        | step y hd1' hy hpidy hmy =>
          cases hd2 with
          | refl =>
            exfalso
            have hymem : y ∈ data := descN_mem_of_base hd1' hc1
            have hyr : y = r :=
              List.inj_on_of_nodup_map hid hymem hrmem
                (by rw [← hpidy, hpp, hpid2])
            rw [hyr] at hd1'
            have hs1 : DescN data 1 r c1 :=
              DescN.step r (DescN.refl r) hc1 hpid1 hm1
            have := reach_no_cycle hid hne hr (descN_trans hs1 hd1')
            omega
          | step w hd2' hw hpidw hmw =>
            exfalso
            have hymem : y ∈ data := descN_mem_of_base hd1' hc1
            have hwmem : w ∈ data := descN_mem_of_base hd2' hc2
            have hyw : y = w :=
              List.inj_on_of_nodup_map hid hymem hwmem
                (by rw [← hpidy, ← hpidw, hpp])
            rw [hyw] at hd1'
            exact sibling_disjoint hid hne hr hc1 hc2 hpid1 hpid2 hm1 hm2
              hne12 hd1' hd2'

/-- In the full ordering, any two emitted rows with equal `parentId`
stand in any consequence `Q` of the comparator relation. -/
theorem orderCore_pairwise {data : List GanttRow} {sf : SortField} {sd : SortDir}
    (hid : (data.map (fun row => row.id)).Nodup)
    (hne : ∀ p ∈ data, p.id ≠ "") {Q : GanttRow → GanttRow → Prop}
    (hQ : ∀ a b, a ∈ data → b ∈ data → leRows sf sd a b → Q a b) :
    (orderCore data sf sd).Pairwise
      (fun o1 o2 => o1.row.parentId = o2.row.parentId → Q o1.row o2.row) := by
  unfold orderCore
  apply pairwise_flatMap_intro
  · intro rt hrt
    obtain ⟨hmem, hp, hm⟩ := mem_rootsOf.1 (mem_sortList.1 hrt)
    exact proc_pairwise hid hne hQ ⟨[], RootedChain.root hmem hp hm⟩
  · have hsorted := sortList_sorted sf sd (rootsOf data)
    apply List.Pairwise.imp_of_mem ?_ (hsorted.and (sortList_nodup (rootsOf_nodup hid)))
    rintro r1 r2 h1mem h2mem ⟨hle12, hne12⟩
    obtain ⟨h1m, hp1, hm1⟩ := mem_rootsOf.1 (mem_sortList.1 h1mem)
    obtain ⟨h2m, hp2, hm2⟩ := mem_rootsOf.1 (mem_sortList.1 h2mem)
    intro o1 ho1 o2 ho2 hpp
    obtain ⟨n1, hd1⟩ := (proc_sound ho1).1
    obtain ⟨n2, hd2⟩ := (proc_sound ho2).1
    cases hd1 with
    | refl =>
      cases hd2 with
      | refl => exact hQ _ _ h1m h2m hle12
      | step w hd2' hw hpidw hmw =>
        exfalso
        have hwmem : w ∈ data := descN_mem_of_base hd2' h2m
        exact hne w hwmem (by rw [← hpidw, ← hpp]; exact hp1)
    | step y hd1' hy hpidy hmy =>
      cases hd2 with
      | refl =>
        exfalso
        have hymem : y ∈ data := descN_mem_of_base hd1' h1m
        exact hne y hymem (by rw [← hpidy, hpp]; exact hp2)
      | step w hd2' hw hpidw hmw =>
        exfalso
        have hymem : y ∈ data := descN_mem_of_base hd1' h1m
        have hwmem : w ∈ data := descN_mem_of_base hd2' h2m
        have hyw : y = w :=
          List.inj_on_of_nodup_map hid hymem hwmem
            (by rw [← hpidy, ← hpidw, hpp])
        rw [hyw] at hd1'
        exact roots_disjoint hid hne h1m h2m hp1 hp2 hne12 hd1' hd2'

/-! ## Orphans -/

/-- A row whose non-empty `parentId` is not the id of any other row has
no rooted chain. -/
theorem rootedChain_no_orphan {data : List GanttRow} :
    ∀ {r : GanttRow} {c : List GanttRow}, RootedChain data r c →
      r.parentId ≠ "" → (∀ p ∈ data, p ≠ r → p.id ≠ r.parentId) → False := by
  intro r c h
  induction h with
  | root hmem hp hm => intro hrp _; exact hrp hp
  | @step r' p' c' hc hmem hpid hm ih =>
    intro hrp horph
    by_cases hpr : p' = r'
    · rw [hpr] at ih
      exact ih hrp horph
    · exact horph p' (rootedChain_mem hc) hpr hpid.symm

/-! ## Remaining helpers for the ordering claims -/

theorem orderGanttRows_def (data0 : List GanttRow) (sf : SortField) (sd : SortDir) :
    orderGanttRows data0 sf sd = orderCore (filteredData data0) sf sd := rfl

theorem rootsOf_filteredData (data0 : List GanttRow) :
    rootsOf (filteredData data0)
      = data0.filter
          (fun r => r.name ≠ sentinel ∧ r.parentId = "" ∧ isMile r = false) := by
  unfold rootsOf childrenOf filteredData
  rw [List.filter_filter, List.filter_filter]
  apply List.filter_congr
  intro x _
  by_cases h1 : x.name = sentinel <;> by_cases h2 : x.parentId = "" <;>
    cases h3 : isMile x <;> simp [h1, h2, h3]

theorem sum_map_ite_eq_count (l : List OutRow) (key : String) :
    (l.map (fun o => if o.row.id = key then 1 else 0)).sum
      = (l.map (fun o => o.row.id)).count key := by
  induction l with
  | nil => rfl
  | cons o l ih =>
    simp only [List.map_cons, List.sum_cons, List.count_cons, ih]
    by_cases h : o.row.id = key
    · simp [h]
      omega
    · simp [h]

/-! ## Claim C4 -/

/-- C4 as literally stated fails: a non-milestone root named exactly
`"val"` is dropped by the sentinel filter, so it is not a root of the
returned ordering. -/
theorem c4_counterexample :
    ({ id := "v", name := "val", rowType := some "project" } : GanttRow).parentId = "" ∧
    isMile { id := "v", name := "val", rowType := some "project" } = false ∧
    orderGanttRows [{ id := "v", name := "val", rowType := some "project" }]
      SortField.name SortDir.asc = [] := by decide

/-- **C4 (amended).** For every dataset, a row with a non-empty
`parentId` matching no other row's id is absent from the sequence
returned by `orderGanttRows`, and the level-0 rows of the sequence are
exactly (a permutation of, namely the sorted arrangement of) the
non-milestone rows with empty `parentId` whose name is not the reserved
sentinel `"val"`. -/
theorem c4_orphans_dropped_roots_exact (data0 : List GanttRow)
    (sf : SortField) (sd : SortDir) :
    (∀ r : GanttRow, r.parentId ≠ "" →
        (∀ p ∈ data0, p ≠ r → p.id ≠ r.parentId) →
        ∀ o ∈ orderGanttRows data0 sf sd, o.row ≠ r) ∧
      List.Perm
        (((orderGanttRows data0 sf sd).filter (fun o => o.level = 0)).map
          (fun o => o.row))
        (data0.filter
          (fun r => r.name ≠ sentinel ∧ r.parentId = "" ∧ isMile r = false)) := by
  rw [orderGanttRows_def]
  constructor
  · intro r hrp horph o ho hor
    have hreach : Reach (filteredData data0) o.row := orderCore_reach ho
    rw [hor] at hreach
    obtain ⟨c, hc⟩ := hreach
    apply rootedChain_no_orphan hc hrp
    intro p hp hpr
    exact horph p (mem_filteredData.1 hp).1 hpr
  · rw [orderCore_filter_level0, ← rootsOf_filteredData]
    exact sortList_perm sf sd _

def exRoot : GanttRow := { id := "r1", name := "root", rowType := some "project" }

def exOrphan : GanttRow :=
  { id := "o1", name := "orph", parentId := "ghost", rowType := some "project" }

theorem c4_witness :
    (∀ o ∈ orderGanttRows [exRoot, exOrphan] SortField.name SortDir.asc,
      o.row ≠ exOrphan) ∧
    List.Perm
      (((orderGanttRows [exRoot, exOrphan] SortField.name SortDir.asc).filter
        (fun o => o.level = 0)).map (fun o => o.row))
      ([exRoot, exOrphan].filter
        (fun r => r.name ≠ sentinel ∧ r.parentId = "" ∧ isMile r = false)) := by
  constructor
  · exact (c4_orphans_dropped_roots_exact [exRoot, exOrphan]
      SortField.name SortDir.asc).1 exOrphan (by decide) (by decide)
  · exact (c4_orphans_dropped_roots_exact [exRoot, exOrphan]
      SortField.name SortDir.asc).2

/-! ## Claim C10 -/

/-- **C10.** The host-placeholder filter of `orderGanttRows` is exactly
the case-sensitive name `"val"`: no emitted row is named `"val"`, while
every non-milestone root with any other name (`"Val"`, `"VAL"`,
`" val "`, …) is emitted (at level 0). -/
theorem c10_sentinel_exact (data0 : List GanttRow) (sf : SortField) (sd : SortDir) :
    (∀ o ∈ orderGanttRows data0 sf sd, o.row.name ≠ sentinel) ∧
    ∀ r ∈ data0, r.name ≠ sentinel → r.parentId = "" → isMile r = false →
      ∃ o ∈ orderGanttRows data0 sf sd, o.row = r ∧ o.level = 0 := by
  rw [orderGanttRows_def]
  constructor
  · intro o ho
    exact (mem_filteredData.1 (orderCore_row_mem ho)).2
  · intro r hr hname hpid hm
    have hmem : r ∈ filteredData data0 := mem_filteredData.2 ⟨hr, hname⟩
    have hroot : r ∈ sortList sf sd (rootsOf (filteredData data0)) :=
      mem_sortList.2 (mem_rootsOf.2 ⟨hmem, hpid, hm⟩)
    rw [← @orderCore_filter_level0 (filteredData data0) sf sd] at hroot
    obtain ⟨o, ho, hor⟩ := List.mem_map.1 hroot
    obtain ⟨ho1, ho2⟩ := List.mem_filter.1 ho
    refine ⟨o, ho1, hor, ?_⟩
    simpa using ho2

def exVal : GanttRow := { id := "v", name := "val", rowType := some "project" }

def exValCap : GanttRow := { id := "w", name := "Val", rowType := some "project" }

theorem c10_witness :
    ("Val" : String) ≠ sentinel ∧
    (∃ o ∈ orderGanttRows [exVal, exValCap] SortField.name SortDir.asc,
      o.row = exValCap ∧ o.level = 0) ∧
    ∀ o ∈ orderGanttRows [exVal, exValCap] SortField.name SortDir.asc,
      o.row.name ≠ sentinel := by
  refine ⟨by decide, ?_, (c10_sentinel_exact [exVal, exValCap]
    SortField.name SortDir.asc).1⟩
  exact (c10_sentinel_exact [exVal, exValCap] SortField.name SortDir.asc).2
    exValCap (by decide) (by decide) (by decide) (by decide)

/-! ## Claim C3 -/

/-- C3 as literally stated fails: milestone `exMileChild`'s `parentId`
is the id of the existing non-milestone row `exOrphanParent`, yet the
milestone appears nowhere (its parent is itself a dropped orphan, so the
ordering is empty). -/
def exOrphanParent : GanttRow :=
  { id := "p", name := "P", parentId := "ghost", rowType := some "project" }

def exMileChild : GanttRow :=
  { id := "m", name := "M", parentId := "p", rowType := some "milestone" }

theorem c3_counterexample :
    (∃ p ∈ [exOrphanParent, exMileChild],
      isMile p = false ∧ p.id = exMileChild.parentId) ∧
    isMile exMileChild = true ∧
    ((orderGanttRows [exOrphanParent, exMileChild] SortField.name SortDir.asc).map
      (fun o => o.milestones.count exMileChild)).sum = 0 := by decide

/-- **C3 (amended).** For datasets with pairwise-distinct, non-empty
ids: a milestone row is never an element of the returned sequence, and
it appears exactly once among the `milestones` lists of the returned
rows if and only if its `parentId` is the id of a (necessarily
non-milestone) row that itself appears in the returned sequence;
otherwise it appears zero times. -/
theorem c3_milestone_placement (data0 : List GanttRow) (sf : SortField)
    (sd : SortDir) (m : GanttRow)
    (hid : (data0.map (fun r => r.id)).Nodup)
    (hne : ∀ p ∈ data0, p.id ≠ "")
    (hm : isMile m = true) (hmem : m ∈ data0) (hname : m.name ≠ sentinel) :
    (∀ o ∈ orderGanttRows data0 sf sd, o.row ≠ m) ∧
    (((orderGanttRows data0 sf sd).map (fun o => o.milestones.count m)).sum = 1 ↔
      ∃ o ∈ orderGanttRows data0 sf sd, o.row.id = m.parentId) ∧
    ((¬ ∃ o ∈ orderGanttRows data0 sf sd, o.row.id = m.parentId) →
      ((orderGanttRows data0 sf sd).map (fun o => o.milestones.count m)).sum = 0) := by
  rw [orderGanttRows_def]
  have hids : ((filteredData data0).map (fun r => r.id)).Nodup :=
    List.Nodup.sublist (List.Sublist.map _ (List.filter_sublist data0)) hid
  have hnef : ∀ p ∈ filteredData data0, p.id ≠ "" :=
    fun p hp => hne p (mem_filteredData.1 hp).1
  have hmemf : m ∈ filteredData data0 := mem_filteredData.2 ⟨hmem, hname⟩
  have hdata_nodup : (filteredData data0).Nodup := List.Nodup.of_map _ hids
  have hA : ∀ o ∈ orderCore (filteredData data0) sf sd, o.row ≠ m := by
    intro o ho heq
    have hmile := orderCore_nonmile ho
    rw [heq, hm] at hmile
    exact Bool.noConfusion hmile
  have hcnt : ∀ o ∈ orderCore (filteredData data0) sf sd,
      o.milestones.count m = if o.row.id = m.parentId then 1 else 0 := by
    intro o ho
    rw [orderCore_miles ho]
    unfold milesOf childrenOf
    by_cases hpid : m.parentId = o.row.id
    · rw [if_pos hpid.symm]
      rw [List.count_filter (by simpa using hm),
        List.count_filter (by simpa using hpid)]
      exact List.count_eq_one_of_mem hdata_nodup hmemf
    · rw [if_neg (fun h => hpid h.symm)]
      rw [List.count_eq_zero]
      intro hmm
      obtain ⟨hmm1, _⟩ := List.mem_filter.1 hmm
      obtain ⟨_, hp2⟩ := List.mem_filter.1 hmm1
      exact hpid (by simpa using hp2)
  have hsum : ((orderCore (filteredData data0) sf sd).map
        (fun o => o.milestones.count m)).sum
      = ((orderCore (filteredData data0) sf sd).map
        (fun o => o.row.id)).count m.parentId := by
    rw [List.map_congr_left hcnt, sum_map_ite_eq_count]
  have hidsL := @orderCore_ids_nodup (filteredData data0) sf sd hids hnef
  refine ⟨hA, ?_, ?_⟩
  · rw [hsum]
    constructor
    · intro h1
      have hmemL : m.parentId ∈ (orderCore (filteredData data0) sf sd).map
          (fun o => o.row.id) := by
        by_contra hnm
        rw [List.count_eq_zero.2 hnm] at h1
        exact one_ne_zero h1.symm
      obtain ⟨o, ho, hok⟩ := List.mem_map.1 hmemL
      exact ⟨o, ho, hok⟩
    · rintro ⟨o, ho, hok⟩
      exact List.count_eq_one_of_mem hidsL (List.mem_map.2 ⟨o, ho, hok⟩)
  · intro hnex
    rw [hsum]
    apply List.count_eq_zero.2
    intro hmemL
    obtain ⟨o, ho, hok⟩ := List.mem_map.1 hmemL
    exact hnex ⟨o, ho, hok⟩

def exParent : GanttRow := { id := "p", name := "P", rowType := some "project" }

def exM : GanttRow :=
  { id := "m", name := "M", parentId := "p", rowType := some "milestone" }

theorem c3_witness :
    isMile exM = true ∧
    ((orderGanttRows [exParent, exM] SortField.name SortDir.asc).map
      (fun o => o.milestones.count exM)).sum = 1 ∧
    ∀ o ∈ orderGanttRows [exParent, exM] SortField.name SortDir.asc,
      o.row ≠ exM := by
  have h := c3_milestone_placement [exParent, exM] SortField.name SortDir.asc exM
    (by decide) (by decide) (by decide) (by decide) (by decide)
  refine ⟨by decide, h.2.1.mpr ?_, h.1⟩
  exact ⟨⟨exParent, 0, [exM]⟩, by decide, by decide⟩

/-! ## Claim C1 -/

/-- The date field used as primary sort key (none for the name field). -/
def dateField (sf : SortField) (r : GanttRow) : Option Int :=
  match sf with
  | SortField.name => none
  | SortField.startDate => r.startDate
  | SortField.endDate => r.endDate

def exDated : GanttRow :=
  { id := "1", name := "a", startDate := some 0, rowType := some "project" }

def exUndated : GanttRow := { id := "2", name := "b", rowType := some "project" }

/-- C1 as literally stated fails: under a *descending* `startDate` sort,
the row without a start date precedes its dated sibling (the null-date
sentinel `Number.MAX_SAFE_INTEGER` is flipped together with the rest of
the key by the direction factor). -/
theorem c1_counterexample :
    exUndated.startDate = none ∧ exDated.startDate = some 0 ∧
    exDated.parentId = exUndated.parentId ∧
    (orderGanttRows [exDated, exUndated] SortField.startDate SortDir.desc).map
      (fun o => o.row) = [exUndated, exDated] := by decide

/-- **C1 (amended).** For a date sort field, under ascending order every
undated row comes after all dated rows among rows with the same parent;
under *descending* order the undated rows instead come first.  (Stated
for datasets with pairwise-distinct non-empty ids and with date values
below `Number.MAX_SAFE_INTEGER`, as produced by the row materializer.) -/
theorem c1_undated_rows_position (data0 : List GanttRow) (sf : SortField)
    (sd : SortDir) (hsf : sf ≠ SortField.name)
    (hid : (data0.map (fun r => r.id)).Nodup)
    (hne : ∀ p ∈ data0, p.id ≠ "")
    (hdates : ∀ r ∈ data0, ∀ t : Int, dateField sf r = some t → t < maxSafeInteger) :
    (orderGanttRows data0 sf sd).Pairwise (fun o1 o2 =>
      o1.row.parentId = o2.row.parentId →
        (match sd with
        | SortDir.asc => dateField sf o1.row = none → dateField sf o2.row = none
        | SortDir.desc => dateField sf o2.row = none → dateField sf o1.row = none)) := by
  rw [orderGanttRows_def]
  have hids : ((filteredData data0).map (fun r => r.id)).Nodup :=
    List.Nodup.sublist (List.Sublist.map _ (List.filter_sublist data0)) hid
  have hnef : ∀ p ∈ filteredData data0, p.id ≠ "" :=
    fun p hp => hne p (mem_filteredData.1 hp).1
  have hdatesf : ∀ r ∈ filteredData data0, ∀ t : Int,
      dateField sf r = some t → t < maxSafeInteger :=
    fun r hr => hdates r (mem_filteredData.1 hr).1
  refine @orderCore_pairwise (filteredData data0) sf sd hids hnef
    (fun a b => match sd with
      | SortDir.asc => dateField sf a = none → dateField sf b = none
      | SortDir.desc => dateField sf b = none → dateField sf a = none) ?_
  intro a b ha hb hle
  rw [leRows_iff] at hle
  cases sf with
  | name => exact absurd rfl hsf
  | startDate =>
    cases sd with
    | asc =>
      intro hna
      have hna' : a.startDate = none := hna
      cases hob : b.startDate with
      | none => exact hob
      | some t =>
        exfalso
        have ht : t < maxSafeInteger := hdatesf b hb t hob
        simp only [keyRel, isDesc, hna', hob, valForDate] at hle
        rcases hle with h | ⟨h, _⟩
        · exact lt_asymm h ht
        · rw [h] at ht; exact lt_irrefl _ ht
    | desc =>
      intro hnb
      have hnb' : b.startDate = none := hnb
      cases hoa : a.startDate with
      | none => exact hoa
      | some t =>
        exfalso
        have ht : t < maxSafeInteger := hdatesf a ha t hoa
        simp only [keyRel, isDesc, hnb', hoa, valForDate] at hle
        rcases hle with h | ⟨h, _⟩
        · exact lt_asymm h ht
        · rw [← h] at ht; exact lt_irrefl _ ht
  | endDate =>
    cases sd with
    | asc =>
      intro hna
      have hna' : a.endDate = none := hna
      cases hob : b.endDate with
      | none => exact hob
      | some t =>
        exfalso
        have ht : t < maxSafeInteger := hdatesf b hb t hob
        simp only [keyRel, isDesc, hna', hob, valForDate] at hle
        rcases hle with h | ⟨h, _⟩
        · exact lt_asymm h ht
        · rw [h] at ht; exact lt_irrefl _ ht
    | desc =>
      intro hnb
      have hnb' : b.endDate = none := hnb
      cases hoa : a.endDate with
      | none => exact hoa
      | some t =>
        exfalso
        have ht : t < maxSafeInteger := hdatesf a ha t hoa
        simp only [keyRel, isDesc, hnb', hoa, valForDate] at hle
        rcases hle with h | ⟨h, _⟩
        · exact lt_asymm h ht
        · rw [← h] at ht; exact lt_irrefl _ ht

theorem c1_witness :
    SortField.startDate ≠ SortField.name ∧
    (orderGanttRows [exDated, exUndated] SortField.startDate SortDir.desc).Pairwise
      (fun o1 o2 => o1.row.parentId = o2.row.parentId →
        (dateField SortField.startDate o2.row = none →
          dateField SortField.startDate o1.row = none)) := by
  refine ⟨by decide, ?_⟩
  exact c1_undated_rows_position [exDated, exUndated] SortField.startDate
    SortDir.desc (by decide) (by decide) (by decide)
    (by
      intro r hr t ht
      rcases List.mem_cons.1 hr with h | h
      · rw [h] at ht
        simp only [dateField, exDated] at ht
        cases ht
        decide
      · rw [List.mem_singleton] at h
        rw [h] at ht
        simp [dateField, exUndated] at ht)

/-! ## JS `Date` model

Dates are epoch milliseconds.  The civil (proleptic-Gregorian) calendar
conversions follow the standard era-based algorithms, which is exactly
the calendar ECMAScript prescribes; the model works in UTC (offset 0).
Loops that advance a date cursor are embedded with explicit fuel chosen
so generously that it covers every input (each month step advances at
least 28 days, each week step exactly 7 days). -/

def msPerDay : Int := 86400000

/-- Days since 1970-01-01 of the civil date `(y, m, d)` with `m ∈ 1..12`;
`d` may be any integer (day-of-month overflow, as in the JS `Date`
constructor). -/
def daysFromCivil (y : Int) (m : Nat) (d : Int) : Int :=
  let y' := if m ≤ 2 then y - 1 else y
  let era := Int.fdiv y' 400
  let yoe := (y' - era * 400).toNat
  let mp := (m + 9) % 12
  let doy := (153 * mp + 2) / 5
  let doe := yoe * 365 + yoe / 4 - yoe / 100 + doy
  era * 146097 + (doe : Int) - 719468 + (d - 1)

/-- Civil date `(year, month 1..12, day 1..31)` of a day number. -/
def civilFromDays (z0 : Int) : Int × Nat × Nat :=
  let z := z0 + 719468
  let era := Int.fdiv z 146097
  let doe := (z - era * 146097).toNat
  let yoe := (doe - doe / 1460 + doe / 36524 - doe / 146096) / 365
  let y := (yoe : Int) + era * 400
  let doy := doe - (365 * yoe + yoe / 4 - yoe / 100)
  let mp := (5 * doy + 2) / 153
  let d := doy - (153 * mp + 2) / 5 + 1
  let m := if mp < 10 then mp + 3 else mp - 9
  (if m ≤ 2 then y + 1 else y, m, d)

def dayOfMs (ms : Int) : Int := Int.fdiv ms msPerDay

def todOfMs (ms : Int) : Int := Int.emod ms msPerDay

def civilOfMs (ms : Int) : Int × Nat × Nat := civilFromDays (dayOfMs ms)

/-- JS `getFullYear()`. -/
def getFullYear (ms : Int) : Int := (civilOfMs ms).1

/-- JS `getMonth()` (0-based month index). -/
def getMonthIdx (ms : Int) : Nat := (civilOfMs ms).2.1 - 1

/-- JS `getDate()` (day of month, 1-based). -/
def getDayOfMonth (ms : Int) : Nat := (civilOfMs ms).2.2

/-- JS `getDay()` (day of week, Sunday = 0; 1970-01-01 was a Thursday). -/
def getDayOfWeek (ms : Int) : Nat := ((dayOfMs ms + 4).emod 7).toNat

/-- The JS `Date(year, monthIndex, day, h, min, s, ms)` constructor,
including month overflow into years and the historical `0 ≤ y ≤ 99 ↦
1900 + y` rule. -/
def jsNewDate (y monthIdx day h mi s msec : Int) : Int :=
  let y0 := if 0 ≤ y ∧ y ≤ 99 then y + 1900 else y
  let yAdj := y0 + Int.fdiv monthIdx 12
  let mAdj := (Int.emod monthIdx 12).toNat + 1
  daysFromCivil yAdj mAdj day * msPerDay + h * 3600000 + mi * 60000 + s * 1000 + msec

/-- JS `setMonth` (keeps day-of-month and time of day; no 1900 rule). -/
def jsSetMonth (ms newMonthIdx : Int) : Int :=
  let c := civilOfMs ms
  let yAdj := c.1 + Int.fdiv newMonthIdx 12
  let mAdj := (Int.emod newMonthIdx 12).toNat + 1
  daysFromCivil yAdj mAdj (c.2.2 : Int) * msPerDay + todOfMs ms

/-- JS `setDate` (keeps year, month and time of day; day may overflow). -/
def jsSetDate (ms newDay : Int) : Int :=
  let c := civilOfMs ms
  daysFromCivil c.1 c.2.1 newDay * msPerDay + todOfMs ms

/-- JS `%` (truncated remainder). -/
def jsRem (a b : Int) : Int := Int.tmod a b

/-! ## Timeline bounds (`getTimelineBounds`) -/

structure TimelineBounds where
  start : Int
  stop : Int
  months : List Int
deriving DecidableEq, Repr

/-- One step of the `minStart` accumulation (`if (d && (!minStart ||
d < minStart)) minStart = d`; a JS `Date` object is always truthy). -/
def accMinStart (acc : Option Int) (d : Option Int) : Option Int :=
  match d with
  | none => acc
  | some t =>
    match acc with
    | none => some t
    | some a => if t < a then some t else acc

/-- One step of the `maxEnd` accumulation. -/
def accMaxEnd (acc : Option Int) (d : Option Int) : Option Int :=
  match d with
  | none => acc
  | some t =>
    match acc with
    | none => some t
    | some a => if a < t then some t else acc

def minStartOf (data : List GanttRow) : Option Int :=
  data.foldl
    (fun acc r =>
      r.milestones.foldl (fun a m => accMinStart a m.startDate)
        (accMinStart acc r.startDate))
    none

def maxEndOf (data : List GanttRow) : Option Int :=
  data.foldl
    (fun acc r =>
      r.milestones.foldl (fun a m => accMaxEnd a m.endDate)
        (accMaxEnd acc r.endDate))
    none

/-- The `while (cursor <= lastMonthStart)` loop collecting month starts. -/
def monthsLoop : Nat → Int → Int → List Int
  | 0, _, _ => []
  | fuel + 1, cursor, lastStart =>
    if cursor ≤ lastStart then
      cursor :: monthsLoop fuel (jsSetMonth cursor ((getMonthIdx cursor : Int) + 1)) lastStart
    else []

/-- Fuel upper bound for a month loop from `s` to `e`: every `setMonth`
step advances at least 28 days. -/
def monthFuel (s e : Int) : Nat := (e - s).toNat / (28 * 86400000) + 2

/-- `getTimelineBounds` (source lines 459–498): month-aligned dataset
span, defaulting to the host-configured dates when no dated rows exist. -/
def getTimelineBounds (data : List GanttRow) (gsd ged : Int) : TimelineBounds :=
  let minStart := (minStartOf data).getD gsd
  let maxEnd := (maxEndOf data).getD ged
  let start := jsNewDate (getFullYear minStart) (getMonthIdx minStart) 1 0 0 0 0
  let lastMonthStart := jsNewDate (getFullYear maxEnd) (getMonthIdx maxEnd) 1 0 0 0 0
  let months0 := monthsLoop (monthFuel start lastMonthStart) start lastMonthStart
  let months := if months0 = [] then [start] else months0
  let stop := jsNewDate (getFullYear lastMonthStart) ((getMonthIdx lastMonthStart : Int) + 1)
    0 23 59 59 999
  ⟨start, stop, months⟩

/-! ## Segments (`getSegments`) -/

inductive Zoom
  | month
  | week
  | year
deriving DecidableEq, Repr

structure Segment where
  start : Int
  label : String
deriving DecidableEq, Repr

/-- `toLocaleString("default", { month: "short" })` in the default
(English) locale. -/
def englishMonthShort (monthIdx : Nat) : String :=
  (["Jan", "Feb", "Mar", "Apr", "May", "Jun", "Jul", "Aug", "Sep", "Oct",
    "Nov", "Dec"]).getD monthIdx ""

/-- `String(n).padStart(2, "0")`. -/
def pad2 (n : Int) : String :=
  let s := toString n
  if s.length < 2 then "0" ++ s else s

def monthSegsLoop : Nat → Int → Int → List Segment
  | 0, _, _ => []
  | fuel + 1, cursor, stop =>
    if cursor ≤ stop then
      ⟨cursor,
        englishMonthShort (getMonthIdx cursor) ++ " " ++
          pad2 (jsRem (getFullYear cursor) 100)⟩ ::
        monthSegsLoop fuel (jsSetMonth cursor ((getMonthIdx cursor : Int) + 1)) stop
    else []

/-- The ISO-like week number computed by the source from day-of-year
arithmetic (float division modelled exactly in `ℚ`). -/
def weekNumOf (wkStart : Int) : Int :=
  let oneJan := jsNewDate (getFullYear wkStart) 0 1 0 0 0 0
  (((wkStart : ℚ) - (oneJan : ℚ)) / 86400000 + (getDayOfWeek oneJan : ℚ) + 1) / 7
    |>.ceil

def weekSegsLoop : Nat → Int → Int → List Segment
  | 0, _, _ => []
  | fuel + 1, cursor, stop =>
    if cursor ≤ stop then
      ⟨cursor, "W" ++ toString (weekNumOf cursor)⟩ ::
        weekSegsLoop fuel (jsSetDate cursor ((getDayOfMonth cursor : Int) + 7)) stop
    else []

/-- Fuel upper bound for the week loop: each step advances exactly 7
days. -/
def weekFuel (s e : Int) : Nat := (e - s).toNat / (7 * 86400000) + 2

/-- The year branch: one segment per calendar year. -/
def yearSegs (startY lastY : Int) : List Segment :=
  (List.range (lastY - startY + 1).toNat).map
    (fun i => ⟨jsNewDate (startY + i) 0 1 0 0 0 0, toString (startY + (i : Int))⟩)

/-- The segment list before the synthetic-segment fallback. -/
def rawSegments (data : List GanttRow) (gsd ged : Int) (z : Zoom) : List Segment :=
  let b := getTimelineBounds data gsd ged
  match z with
  | Zoom.month =>
    let cursor0 := jsNewDate (getFullYear b.start) (getMonthIdx b.start) 1 0 0 0 0
    monthSegsLoop (monthFuel cursor0 b.stop) cursor0 b.stop
  | Zoom.week =>
    let day := getDayOfWeek b.start
    let diffToMonday := (day + 6) % 7
    let cursor0 := jsSetDate b.start ((getDayOfMonth b.start : Int) - diffToMonday)
    weekSegsLoop (weekFuel cursor0 b.stop) cursor0 b.stop
  | Zoom.year => yearSegs (getFullYear b.start) (getFullYear b.stop)

/-- `getSegments` (source lines 500–546), including the synthetic
single segment `{start, ""}` when the span yields zero segments. -/
def getSegments (data : List GanttRow) (gsd ged : Int) (z : Zoom) : List Segment :=
  let segs := rawSegments data gsd ged z
  if segs = [] then [⟨(getTimelineBounds data gsd ged).start, ""⟩] else segs

/-! ## Date-to-percentage conversion -/

/-- `calculateStartX` (source lines 570–584): percentage of the axis, or
`0` before the axis start, or the off-axis sentinel `-1`. -/
def calculateStartX (data : List GanttRow) (gsd ged : Int) (date : Option Int) : ℚ :=
  match date with
  | none => -1
  | some d =>
    let b := getTimelineBounds data gsd ged
    if d < b.start then 0
    else if b.stop < d then -1
    else ((d : ℚ) - (b.start : ℚ)) / ((b.stop : ℚ) - (b.start : ℚ)) * 100

/-- `calculateEndWidth` (source lines 599–615): clip the range to the
axis, `-1` off-axis, `2` for an empty or inverted clipped range,
otherwise the clipped width percentage. -/
def calculateEndWidth (data : List GanttRow) (gsd ged : Int)
    (startDate endDate : Option Int) : ℚ :=
  match startDate, endDate with
  | some s, some e =>
    let b := getTimelineBounds data gsd ged
    if e < b.start ∨ b.stop < s then -1
    else
      let clipStart := if s < b.start then b.start else s
      let clipEnd := if b.stop < e then b.stop else e
      if clipEnd ≤ clipStart then 2
      else ((clipEnd : ℚ) - (clipStart : ℚ)) / ((b.stop : ℚ) - (b.start : ℚ)) * 100
  | _, _ => -1

/-! ## Claim C2: year-mode per-segment pixel allocation -/

/-- Elapsed span of each segment: next segment's start (or the axis end
for the last one) minus own start, clamped at `0`
(`Math.max(0, segEnd - segStart)`). -/
def segSpans : List Int → Int → List Int
  | [], _ => []
  | [s], e => [max 0 (e - s)]
  | s1 :: s2 :: rest, e => max 0 (s2 - s1) :: segSpans (s2 :: rest) e

/-- `Number(end) - Number(start) || 1`. -/
def totalMsOf (startB endB : Int) : Int :=
  if endB - startB = 0 then 1 else endB - startB

/-- The initial proportional widths
`Math.max(8, Math.floor((availablePx * segMs) / totalMs))`. -/
def initWidths (availablePx : Nat) (segStarts : List Int) (startB endB : Int) :
    List Nat :=
  (segSpans segStarts endB).map
    (fun ms => (max 8 (Int.fdiv ((availablePx : Int) * ms) (totalMsOf startB endB))).toNat)

/-- `perSegWidths[ri] += 1`. -/
def incAt : Nat → List Nat → List Nat
  | _, [] => []
  | 0, w :: ws => (w + 1) :: ws
  | i + 1, w :: ws => w :: incAt i ws

/-- `perSegWidths[ri] -= 1`. -/
def decAt : Nat → List Nat → List Nat
  | _, [] => []
  | 0, w :: ws => (w - 1) :: ws
  | i + 1, w :: ws => w :: decAt i ws

/-- The remainder-redistribution loop (source lines 681–696).  The fuel
`rem.natAbs` is exact: every iteration moves `remainder` one unit toward
`0`, so the loop ends (by `remainder = 0` or by the `break` on an
unshrinkable 8-px segment) before the fuel does. -/
def redistribute : Nat → List Nat → Int → Nat → List Nat
  | 0, ws, _, _ => ws
  | fuel + 1, ws, rem, ri =>
    if rem = 0 ∨ ws.length = 0 then ws
    else if 0 < rem then
      redistribute fuel (incAt ri ws) (rem - 1) ((ri + 1) % ws.length)
    else if 8 < ws.getD ri 0 then
      redistribute fuel (decAt ri ws) (rem + 1) ((ri + 1) % ws.length)
    else ws

/-- The year-mode `perSegWidths` allocation of `GanttTable` (source
lines 669–696). -/
def perSegWidthsYear (availablePx : Nat) (segStarts : List Int)
    (startB endB : Int) : List Nat :=
  let ws := initWidths availablePx segStarts startB endB
  let rem : Int := (availablePx : Int) - (ws.sum : Int)
  redistribute rem.natAbs ws rem 0

/-- The same allocation computed from a dataset, exactly as `GanttTable`
wires it: segments from `getSegments` in year zoom, bounds from
`getTimelineBounds`. -/
def yearPerSegWidths (data : List GanttRow) (gsd ged : Int)
    (availablePx : Nat) : List Nat :=
  let b := getTimelineBounds data gsd ged
  perSegWidthsYear availablePx
    ((getSegments data gsd ged Zoom.year).map (fun s => s.start)) b.start b.stop

theorem length_incAt (i : Nat) (ws : List Nat) : (incAt i ws).length = ws.length := by
  induction ws generalizing i with
  | nil => cases i <;> rfl
  | cons w ws ih =>
    cases i with
    | zero => rfl
    | succ i => simp [incAt, ih]

theorem sum_incAt : ∀ (i : Nat) (ws : List Nat), i < ws.length →
    (incAt i ws).sum = ws.sum + 1 := by
  intro i ws
  induction ws generalizing i with
  | nil => intro h; simp at h
  | cons w ws ih =>
    intro h
    cases i with
    | zero => simp [incAt]; omega
    | succ i =>
      have hi : i < ws.length := by simpa using h
      simp [incAt, ih i hi]
      omega

/-- With a nonnegative remainder the loop only adds pixels, one per
iteration, until the remainder is exhausted. -/
theorem redistribute_sum :
    ∀ (fuel : Nat) (ws : List Nat) (rem : Int) (ri : Nat), 0 ≤ rem →
      rem.natAbs ≤ fuel → ws ≠ [] → ri < ws.length →
      ((redistribute fuel ws rem ri).sum : Int) = (ws.sum : Int) + rem := by
  intro fuel
  induction fuel with
  | zero =>
    intro ws rem ri hrem hfuel _ _
    have : rem = 0 := by omega
    simp [redistribute, this]
  | succ fuel ih =>
    intro ws rem ri hrem hfuel hws hri
    by_cases hrem0 : rem = 0
    · simp [redistribute, hrem0]
    · have hlen : ws.length ≠ 0 := by
        intro h
        exact hws (List.length_eq_zero.1 h)
      have hcond : ¬(rem = 0 ∨ ws.length = 0) := by tauto
      have hpos : 0 < rem := lt_of_le_of_ne hrem (Ne.symm hrem0)
      simp only [redistribute, if_neg hcond, if_pos hpos]
      have hlen2 : (incAt ri ws).length = ws.length := length_incAt ri ws
      have hne2 : incAt ri ws ≠ [] := by
        intro h
        rw [h] at hlen2
        exact hlen hlen2.symm
      have := ih (incAt ri ws) (rem - 1) ((ri + 1) % ws.length)
        (by omega) (by omega) hne2
        (by rw [hlen2]; exact Nat.mod_lt _ (Nat.pos_of_ne_zero hlen))
      rw [this, sum_incAt ri ws hri]
      push_cast
      omega

theorem segSpans_ne_nil : ∀ (l : List Int) (e : Int), l ≠ [] → segSpans l e ≠ [] := by
  intro l e h
  match l with
  | [s] => simp [segSpans]
  | s1 :: s2 :: rest => simp [segSpans]

/-- C2 as literally stated fails: with zero available pixels (a
zero-width container) and the single 1970 segment of an empty dataset,
the 8-px floor forces the widths to sum to 8, and the shrink pass cannot
go below 8, so the sum is not the available width. -/
theorem c2_counterexample :
    (yearPerSegWidths [] 0 0 0).sum = 8 ∧ (8 : Nat) ≠ 0 := by decide

/-- **C2 (amended).** The year-mode allocation sums exactly to the
available width whenever the initial floored (and 8-px-clamped)
proportional widths do not already exceed it — in that case the
remainder is nonnegative and the round-robin pass distributes it
exactly.  (When the initial widths overshoot — tiny containers, or spans
overlapping the axis start so that the segment spans sum to more than
the axis span — the shrink pass can stop early at the 8-px floor and the
total then exceeds the available width.) -/
theorem c2_year_width_sum (availablePx : Nat) (segStarts : List Int)
    (startB endB : Int) (hne : segStarts ≠ [])
    (hsum : (initWidths availablePx segStarts startB endB).sum ≤ availablePx) :
    (perSegWidthsYear availablePx segStarts startB endB).sum = availablePx := by
  unfold perSegWidthsYear
  have hlen : initWidths availablePx segStarts startB endB ≠ [] := by
    unfold initWidths
    intro h
    exact segSpans_ne_nil segStarts endB hne (List.map_eq_nil_iff.1 h)
  have hlenpos : 0 < (initWidths availablePx segStarts startB endB).length :=
    List.length_pos.2 hlen
  have h := redistribute_sum
    ((availablePx : Int) - ((initWidths availablePx segStarts startB endB).sum : Int)).natAbs
    (initWidths availablePx segStarts startB endB)
    ((availablePx : Int) - ((initWidths availablePx segStarts startB endB).sum : Int))
    0 (by omega) (le_refl _) hlen hlenpos
  show ((redistribute
    ((availablePx : Int) - ((initWidths availablePx segStarts startB endB).sum : Int)).natAbs
    (initWidths availablePx segStarts startB endB)
    ((availablePx : Int) - ((initWidths availablePx segStarts startB endB).sum : Int))
    0).sum) = availablePx
  omega

def exTwoYearStarts : List Int := [0, 31536000000]

theorem c2_witness :
    (initWidths 1000 exTwoYearStarts 0 63072000000).sum ≤ 1000 ∧
    (perSegWidthsYear 1000 exTwoYearStarts 0 63072000000).sum = 1000 :=
  ⟨by decide, c2_year_width_sum 1000 exTwoYearStarts 0 63072000000
    (by decide) (by decide)⟩

/-! ## Claim C5 -/

/-- **C5.** The geometry functions are total (they are plain functions
of this embedding; none can throw): `getSegments` always returns at
least one segment, and when the computed span yields zero segments it
returns exactly one synthetic segment at the axis start with an empty
label; the date-percentage conversions degrade to the `-1` sentinel on
null dates. -/
theorem c5_segments_total (data : List GanttRow) (gsd ged : Int) (z : Zoom) :
    getSegments data gsd ged z ≠ [] ∧
    (rawSegments data gsd ged z = [] →
      getSegments data gsd ged z
        = [⟨(getTimelineBounds data gsd ged).start, ""⟩]) ∧
    calculateStartX data gsd ged none = -1 ∧
    (∀ sdo edo : Option Int, sdo = none ∨ edo = none →
      calculateEndWidth data gsd ged sdo edo = -1) := by
  refine ⟨?_, ?_, rfl, ?_⟩
  · simp only [getSegments]
    by_cases h : rawSegments data gsd ged z = []
    · rw [if_pos h]
      simp
    · rw [if_neg h]
      exact h
  · intro h
    simp only [getSegments]
    rw [if_pos h]
  · intro sdo edo h
    rcases h with h | h
    · rw [h]
      rfl
    · rw [h]
      cases sdo <;> rfl

/-- A pathological dataset whose only row starts after it ends; its
month-normalized bounds are inverted (`stop < start`), which exercises
the degenerate zero-segment branch. -/
def exInverted : GanttRow :=
  { id := "x", name := "X", startDate := some 1746835200000,
    endDate := some 1704412800000, rowType := some "project" }

theorem c5_witness :
    rawSegments [exInverted] 0 0 Zoom.year = [] ∧
    getSegments [exInverted] 0 0 Zoom.year
      = [⟨(getTimelineBounds [exInverted] 0 0).start, ""⟩] ∧
    getSegments [exInverted] 0 0 Zoom.year ≠ [] ∧
    calculateEndWidth [exInverted] 0 0 none (some 5) = -1 :=
  ⟨by decide, (c5_segments_total [exInverted] 0 0 Zoom.year).2.1 (by decide),
    (c5_segments_total [exInverted] 0 0 Zoom.year).1,
    (c5_segments_total [exInverted] 0 0 Zoom.year).2.2.2 none (some 5) (Or.inl rfl)⟩

/-! ## Claim C6 -/

/-- C6 as literally stated fails on a dataset with inverted bounds
(every start date after every end date): the axis start itself — a date
"at or before the axis start" — maps to the off-axis sentinel `-1`, not
to `0`, because the `date > end` test fires first when `stop < start`. -/
theorem c6_counterexample :
    (getTimelineBounds [exInverted] 0 0).stop
      < (getTimelineBounds [exInverted] 0 0).start ∧
    calculateStartX [exInverted] 0 0
      (some ((getTimelineBounds [exInverted] 0 0).start)) = -1 ∧
    (-1 : ℚ) ≠ 0 := by decide

/-- **C6 (amended).** Provided the axis bounds are proper
(`start < stop`, which holds whenever the dataset's earliest start month
does not come after its latest end month): `calculateStartX` returns
`-1` on a null date, `0` for every date at or before the axis start,
`-1` for every date strictly after the axis end, the linear percentage
for dates within the bounds, and it is monotone non-decreasing there. -/
theorem c6_calculateStartX_props (data : List GanttRow) (gsd ged : Int)
    (h : (getTimelineBounds data gsd ged).start
      < (getTimelineBounds data gsd ged).stop) :
    calculateStartX data gsd ged none = -1 ∧
    (∀ d : Int, d ≤ (getTimelineBounds data gsd ged).start →
      calculateStartX data gsd ged (some d) = 0) ∧
    (∀ d : Int, (getTimelineBounds data gsd ged).stop < d →
      calculateStartX data gsd ged (some d) = -1) ∧
    (∀ d : Int, (getTimelineBounds data gsd ged).start ≤ d →
      d ≤ (getTimelineBounds data gsd ged).stop →
      calculateStartX data gsd ged (some d)
        = ((d : ℚ) - ((getTimelineBounds data gsd ged).start : ℚ))
          / (((getTimelineBounds data gsd ged).stop : ℚ)
            - ((getTimelineBounds data gsd ged).start : ℚ)) * 100) ∧
    (∀ d1 d2 : Int, (getTimelineBounds data gsd ged).start ≤ d1 → d1 ≤ d2 →
      d2 ≤ (getTimelineBounds data gsd ged).stop →
      calculateStartX data gsd ged (some d1)
        ≤ calculateStartX data gsd ged (some d2)) := by
  have hform : ∀ d : Int, (getTimelineBounds data gsd ged).start ≤ d →
      d ≤ (getTimelineBounds data gsd ged).stop →
      calculateStartX data gsd ged (some d)
        = ((d : ℚ) - ((getTimelineBounds data gsd ged).start : ℚ))
          / (((getTimelineBounds data gsd ged).stop : ℚ)
            - ((getTimelineBounds data gsd ged).start : ℚ)) * 100 := by
    intro d h1 h2
    simp only [calculateStartX]
    rw [if_neg (not_lt.2 h1), if_neg (not_lt.2 h2)]
  have hden : (0 : ℚ) < ((getTimelineBounds data gsd ged).stop : ℚ)
      - ((getTimelineBounds data gsd ged).start : ℚ) := by
    have : ((getTimelineBounds data gsd ged).start : ℚ)
        < ((getTimelineBounds data gsd ged).stop : ℚ) := by exact_mod_cast h
    linarith
  refine ⟨rfl, ?_, ?_, hform, ?_⟩
  · intro d hd
    simp only [calculateStartX]
    by_cases h1 : d < (getTimelineBounds data gsd ged).start
    · rw [if_pos h1]
    · have heq : d = (getTimelineBounds data gsd ged).start :=
        le_antisymm hd (not_lt.1 h1)
      rw [if_neg h1, if_neg (not_lt.2 (heq ▸ le_of_lt h))]
      rw [heq]
      simp
  · intro d hd
    simp only [calculateStartX]
    rw [if_neg (not_lt.2 (le_of_lt (lt_trans h hd))), if_pos hd]
  · intro d1 d2 h1 h12 h2
    rw [hform d1 h1 (le_trans h12 h2), hform d2 (le_trans h1 h12) h2]
    have hnum : (d1 : ℚ) - ((getTimelineBounds data gsd ged).start : ℚ)
        ≤ (d2 : ℚ) - ((getTimelineBounds data gsd ged).start : ℚ) := by
      have : (d1 : ℚ) ≤ (d2 : ℚ) := by exact_mod_cast h12
      linarith
    gcongr

/-- A well-formed dataset: one row spanning 2024-01-01 to 2024-02-29. -/
def exNormal : GanttRow :=
  { id := "n", name := "N", startDate := some 1704067200000,
    endDate := some 1709164800000, rowType := some "project" }

theorem c6_witness :
    (getTimelineBounds [exNormal] 0 0).start
      < (getTimelineBounds [exNormal] 0 0).stop ∧
    calculateStartX [exNormal] 0 0 none = -1 ∧
    calculateStartX [exNormal] 0 0
      (some ((getTimelineBounds [exNormal] 0 0).start)) = 0 ∧
    calculateStartX [exNormal] 0 0 (some 1704153600000)
      ≤ calculateStartX [exNormal] 0 0 (some 1705363200000) := by
  have h : (getTimelineBounds [exNormal] 0 0).start
      < (getTimelineBounds [exNormal] 0 0).stop := by decide
  have c := c6_calculateStartX_props [exNormal] 0 0 h
  exact ⟨h, c.1, c.2.1 _ (le_refl _),
    c.2.2.2.2 1704153600000 1705363200000 (by decide) (by decide) (by decide)⟩

/-! ## Claim C7 -/

/-- **C7.** `calculateEndWidth` returns `-1` when either date is null or
the range misses the axis (`end` before axis start or `start` after axis
end); returns the sentinel width `2` when the range clipped to the axis
is empty or inverted; otherwise returns the clipped duration as a
percentage of the axis span, which is strictly positive — and it never
returns `0`. -/
theorem c7_calculateEndWidth_cases (data : List GanttRow) (gsd ged : Int)
    (bs be : Int) (bm : List Int)
    (hb : getTimelineBounds data gsd ged = ⟨bs, be, bm⟩) :
    (∀ sdo edo : Option Int, sdo = none ∨ edo = none →
      calculateEndWidth data gsd ged sdo edo = -1) ∧
    (∀ s e : Int, (e < bs ∨ be < s) →
      calculateEndWidth data gsd ged (some s) (some e) = -1) ∧
    (∀ s e : Int, ¬(e < bs ∨ be < s) →
      (if be < e then be else e) ≤ (if s < bs then bs else s) →
      calculateEndWidth data gsd ged (some s) (some e) = 2) ∧
    (∀ s e : Int, ¬(e < bs ∨ be < s) →
      (if s < bs then bs else s) < (if be < e then be else e) →
      calculateEndWidth data gsd ged (some s) (some e)
          = ((((if be < e then be else e) - (if s < bs then bs else s) : Int)) : ℚ)
            / ((be : ℚ) - (bs : ℚ)) * 100 ∧
        0 < calculateEndWidth data gsd ged (some s) (some e)) ∧
    (∀ sdo edo : Option Int, calculateEndWidth data gsd ged sdo edo ≠ 0) := by
  have hnone : ∀ sdo edo : Option Int, sdo = none ∨ edo = none →
      calculateEndWidth data gsd ged sdo edo = -1 := by
    intro sdo edo h
    rcases h with h | h
    · rw [h]; rfl
    · rw [h]; cases sdo <;> rfl
  have hmiss : ∀ s e : Int, (e < bs ∨ be < s) →
      calculateEndWidth data gsd ged (some s) (some e) = -1 := by
    intro s e h
    simp only [calculateEndWidth, hb]
    rw [if_pos h]
  have hclip : ∀ s e : Int, ¬(e < bs ∨ be < s) →
      (if be < e then be else e) ≤ (if s < bs then bs else s) →
      calculateEndWidth data gsd ged (some s) (some e) = 2 := by
    intro s e h h2
    simp only [calculateEndWidth, hb]
    rw [if_neg h, if_pos h2]
  have hposcase : ∀ s e : Int, ¬(e < bs ∨ be < s) →
      (if s < bs then bs else s) < (if be < e then be else e) →
      calculateEndWidth data gsd ged (some s) (some e)
          = ((((if be < e then be else e) - (if s < bs then bs else s) : Int)) : ℚ)
            / ((be : ℚ) - (bs : ℚ)) * 100 ∧
        0 < calculateEndWidth data gsd ged (some s) (some e) := by
    intro s e h hlt
    have heq : calculateEndWidth data gsd ged (some s) (some e)
        = ((((if be < e then be else e) - (if s < bs then bs else s) : Int)) : ℚ)
          / ((be : ℚ) - (bs : ℚ)) * 100 := by
      simp only [calculateEndWidth, hb]
      rw [if_neg h, if_neg (not_le.2 hlt)]
      rw [Int.cast_sub]
    refine ⟨heq, ?_⟩
    rw [heq]
    have hsle : bs ≤ (if s < bs then bs else s) := by
      by_cases hc : s < bs
      · rw [if_pos hc]
      · rw [if_neg hc]; exact not_lt.1 hc
    have hele : (if be < e then be else e) ≤ be := by
      by_cases hc : be < e
      · rw [if_pos hc]
      · rw [if_neg hc]; exact not_lt.1 hc
    have hbsbe : bs < be := lt_of_le_of_lt hsle (lt_of_lt_of_le hlt hele)
    have hnum : (0 : ℚ)
        < ((((if be < e then be else e) - (if s < bs then bs else s) : Int)) : ℚ) := by
      exact_mod_cast sub_pos.2 hlt
    have hden : (0 : ℚ) < (be : ℚ) - (bs : ℚ) := by
      have : (bs : ℚ) < (be : ℚ) := by exact_mod_cast hbsbe
      linarith
    positivity
  refine ⟨hnone, hmiss, hclip, hposcase, ?_⟩
  intro sdo edo
  rcases sdo with _ | s
  · rw [hnone none edo (Or.inl rfl)]
    norm_num
  rcases edo with _ | e
  · rw [hnone (some s) none (Or.inr rfl)]
    norm_num
  by_cases h1 : e < bs ∨ be < s
  · rw [hmiss s e h1]
    norm_num
  by_cases h2 : (if be < e then be else e) ≤ (if s < bs then bs else s)
  · rw [hclip s e h1 h2]
    norm_num
  · exact ne_of_gt (hposcase s e h1 (not_le.1 h2)).2

theorem c7_witness :
    calculateEndWidth [exNormal] 0 0 none (some 5) = -1 ∧
    calculateEndWidth [exNormal] 0 0 (some 100) (some 200) = -1 ∧
    calculateEndWidth [exNormal] 0 0 (some 1704500000000) (some 1704500000000) = 2 ∧
    0 < calculateEndWidth [exNormal] 0 0 (some 1704067200000) (some 1709251199999) ∧
    calculateEndWidth [exNormal] 0 0 (some 100) (some 200) ≠ 0 := by
  have c := c7_calculateEndWidth_cases [exNormal] 0 0 1704067200000 1709251199999
    [1704067200000, 1706745600000] (by decide)
  exact ⟨c.1 none (some 5) (Or.inl rfl), c.2.1 100 200 (by decide),
    c.2.2.1 1704500000000 1704500000000 (by decide) (by decide),
    (c.2.2.2.1 1704067200000 1709251199999 (by decide) (by decide)).2,
    c.2.2.2.2 (some 100) (some 200)⟩

/-! ## Claim C8: the end-date drag interaction

The drag state and its two transition functions are embedded as pure
functions: `onBarDragMove` updates the live width from the pointer
position, `onGlobalMouseUp` converts the final right edge back to a date
(JS `new Date(number)` truncates the numeric argument toward zero),
stores it in the override map (modelled as an association list) and
emits the `onEndDateChange` notification list — whose length is the
number of callback invocations for the release. -/

structure EditingEndState where
  rowId : String
  startX : Int
  rowLeftPct : ℚ
  startWidthPct : ℚ
  liveWidthPct : ℚ
  containerPx : Int
  winStart : Int
  winEnd : Int
deriving DecidableEq, Repr

/-- `deltaPct = (deltaPx / containerPx) * 100`. -/
def dragDeltaPct (edit : EditingEndState) (clientX : Int) : ℚ :=
  (((clientX - edit.startX : Int) : ℚ) / (edit.containerPx : ℚ)) * 100

/-- `onBarDragMove` (source lines 350–361): live width, clamped to
`[1, 100 − rowLeftPct]`. -/
def onBarDragMove (edit : EditingEndState) (clientX : Int) : EditingEndState :=
  let liveWidthPct := edit.startWidthPct + dragDeltaPct edit clientX
  let liveWidthPct := if liveWidthPct < 1 then 1 else liveWidthPct
  let liveWidthPct :=
    if 100 - edit.rowLeftPct < liveWidthPct then 100 - edit.rowLeftPct
    else liveWidthPct
  { edit with liveWidthPct := liveWidthPct }

/-- ECMAScript number-to-time truncation (toward zero). -/
def ratTrunc (q : ℚ) : Int := if q < 0 then ⌈q⌉ else ⌊q⌋

/-- The date computed on release:
`new Date(Number(start) + (rightPct / 100) * totalMs)`. -/
def mouseUpNewEnd (edit : EditingEndState) : Int :=
  ratTrunc ((edit.winStart : ℚ)
    + ((edit.rowLeftPct + edit.liveWidthPct) / 100)
      * ((edit.winEnd : ℚ) - (edit.winStart : ℚ)))

/-- `onGlobalMouseUp` (source lines 362–385), returning the new editing
state, the override map, and the list of emitted `onEndDateChange`
notifications for this release. -/
def onGlobalMouseUp (adjustableEndDate : Bool)
    (editingEnd : Option EditingEndState) (overrides : List (String × Int)) :
    Option EditingEndState × List (String × Int) × List (String × Int) :=
  match editingEnd with
  | none => (none, overrides, [])
  | some edit =>
    if !adjustableEndDate then (none, overrides, [])
    else
      let newEnd := mouseUpNewEnd edit
      (none, (edit.rowId, newEnd) :: overrides, [(edit.rowId, newEnd)])

theorem ratTrunc_ge_floor (q : ℚ) : ⌊q⌋ ≤ ratTrunc q := by
  unfold ratTrunc
  by_cases h : q < 0
  · rw [if_pos h]
    exact Int.floor_le_ceil q
  · rw [if_neg h]

def exEdit : EditingEndState :=
  { rowId := "r", startX := 0, rowLeftPct := 0, startWidthPct := 100,
    liveWidthPct := 100, containerPx := 100, winStart := 0, winEnd := 1000000 }

/-- C8 as literally stated fails at the clamp boundary: a bar that
already ends at the axis end (`rowLeftPct + startWidthPct = 100`)
dragged by a positive pixel delta stores an override equal to — not
strictly later than — the original end date, because the live width is
clamped at `100 − rowLeftPct`. -/
theorem c8_counterexample :
    (0 : Int) < 10 - exEdit.startX ∧
    (exEdit.winStart : ℚ)
        + ((exEdit.rowLeftPct + exEdit.startWidthPct) / 100)
          * ((exEdit.winEnd : ℚ) - (exEdit.winStart : ℚ)) = (1000000 : ℚ) ∧
    mouseUpNewEnd (onBarDragMove exEdit 10) = 1000000 ∧
    ¬(1000000 < mouseUpNewEnd (onBarDragMove exEdit 10)) := by
  have hv : mouseUpNewEnd (onBarDragMove exEdit 10) = 1000000 := by
    norm_num [mouseUpNewEnd, onBarDragMove, dragDeltaPct, ratTrunc, exEdit]
  refine ⟨by norm_num [exEdit], by norm_num [exEdit], hv, by rw [hv]; norm_num⟩

/-- **C8 (amended).** On release with `adjustableEndDate` enabled, the
change callback fires exactly once, with the same date that is stored in
the override map; and that date is strictly later than the row's
original end date provided the positive drag does not hit the
`100 − rowLeftPct` clamp, does not start below the 1% clamp, the
original end date corresponds exactly to the captured bar geometry, and
the percentage delta is worth at least one millisecond of axis time. -/
theorem c8_drag_release (edit : EditingEndState) (clientX : Int)
    (origEnd : Int) (overrides : List (String × Int))
    (horig : (edit.winStart : ℚ)
      + ((edit.rowLeftPct + edit.startWidthPct) / 100)
        * ((edit.winEnd : ℚ) - (edit.winStart : ℚ)) = (origEnd : ℚ))
    (hlo : 1 ≤ edit.startWidthPct + dragDeltaPct edit clientX)
    (hhi : edit.rowLeftPct + edit.startWidthPct + dragDeltaPct edit clientX ≤ 100)
    (hms : 1 ≤ (dragDeltaPct edit clientX / 100)
      * ((edit.winEnd : ℚ) - (edit.winStart : ℚ))) :
    (onGlobalMouseUp true (some (onBarDragMove edit clientX)) overrides).2.2
        = [(edit.rowId, mouseUpNewEnd (onBarDragMove edit clientX))] ∧
    (onGlobalMouseUp true (some (onBarDragMove edit clientX)) overrides).2.1
        = (edit.rowId, mouseUpNewEnd (onBarDragMove edit clientX)) :: overrides ∧
    origEnd < mouseUpNewEnd (onBarDragMove edit clientX) := by
  have hlive : (onBarDragMove edit clientX).liveWidthPct
      = edit.startWidthPct + dragDeltaPct edit clientX := by
    simp only [onBarDragMove]
    rw [if_neg (not_lt.2 hlo), if_neg (not_lt.2 (by linarith))]
  have hrow : (onBarDragMove edit clientX).rowId = edit.rowId := rfl
  have hleft : (onBarDragMove edit clientX).rowLeftPct = edit.rowLeftPct := rfl
  have hwin1 : (onBarDragMove edit clientX).winStart = edit.winStart := rfl
  have hwin2 : (onBarDragMove edit clientX).winEnd = edit.winEnd := rfl
  refine ⟨rfl, rfl, ?_⟩
  have hval : (edit.winStart : ℚ)
      + (((onBarDragMove edit clientX).rowLeftPct
          + (onBarDragMove edit clientX).liveWidthPct) / 100)
        * ((edit.winEnd : ℚ) - (edit.winStart : ℚ))
      = (origEnd : ℚ) + (dragDeltaPct edit clientX / 100)
        * ((edit.winEnd : ℚ) - (edit.winStart : ℚ)) := by
    rw [hlive, hleft, ← horig]
    ring
  have hge : ((origEnd + 1 : Int) : ℚ) ≤ (edit.winStart : ℚ)
      + (((onBarDragMove edit clientX).rowLeftPct
          + (onBarDragMove edit clientX).liveWidthPct) / 100)
        * ((edit.winEnd : ℚ) - (edit.winStart : ℚ)) := by
    rw [hval]
    push_cast
    linarith
  have hfloor : (origEnd + 1 : Int)
      ≤ ⌊(edit.winStart : ℚ)
        + (((onBarDragMove edit clientX).rowLeftPct
            + (onBarDragMove edit clientX).liveWidthPct) / 100)
          * ((edit.winEnd : ℚ) - (edit.winStart : ℚ))⌋ :=
    Int.le_floor.mpr hge
  have htr := ratTrunc_ge_floor ((edit.winStart : ℚ)
    + (((onBarDragMove edit clientX).rowLeftPct
        + (onBarDragMove edit clientX).liveWidthPct) / 100)
      * ((edit.winEnd : ℚ) - (edit.winStart : ℚ)))
  have : origEnd + 1 ≤ mouseUpNewEnd (onBarDragMove edit clientX) := by
    unfold mouseUpNewEnd
    rw [hwin1, hwin2]
    exact le_trans hfloor htr
  omega

def exEdit2 : EditingEndState :=
  { rowId := "r", startX := 0, rowLeftPct := 0, startWidthPct := 50,
    liveWidthPct := 50, containerPx := 100, winStart := 0, winEnd := 1000000 }

theorem c8_witness :
    (onGlobalMouseUp true (some (onBarDragMove exEdit2 10)) []).2.2
        = [("r", mouseUpNewEnd (onBarDragMove exEdit2 10))] ∧
    mouseUpNewEnd (onBarDragMove exEdit2 10) = 600000 ∧
    (500000 : Int) < mouseUpNewEnd (onBarDragMove exEdit2 10) := by
  have h := c8_drag_release exEdit2 10 500000 []
    (by norm_num [exEdit2]) (by norm_num [dragDeltaPct, exEdit2])
    (by norm_num [dragDeltaPct, exEdit2]) (by norm_num [dragDeltaPct, exEdit2])
  refine ⟨h.1, ?_, h.2.2⟩
  norm_num [mouseUpNewEnd, onBarDragMove, dragDeltaPct, ratTrunc, exEdit2]

/-! ## Claim C9: the color resolver (`index.ts`)

All string operations are implemented structurally over `List Char` so
that they evaluate inside the kernel; they agree with the JS operations
on the ASCII inputs this component receives.  `JSON.parse` is modelled
by a parser for flat JSON arrays of scalars without escape sequences —
the only inputs on which the source's JSON branch can succeed that the
model treats differently are exotic (nested arrays, escaped strings,
non-normalized number literals), and on every input the *control flow*
(success ↦ mapped array, failure ↦ manual fallback) mirrors the
source. -/

/-- The ASCII part of the JS `\s` whitespace class. -/
def jsWhitespace (c : Char) : Bool :=
  c = ' ' ∨ c = '\t' ∨ c = '\n' ∨ c = '\r' ∨ c = '\x0b' ∨ c = '\x0c'

/-- `String.prototype.trim`. -/
def jsTrim (s : String) : String :=
  ⟨((s.data.dropWhile jsWhitespace).reverse.dropWhile jsWhitespace).reverse⟩

/-- `.replace(/^['"]|['"]$/g, "")`: drop one leading and one trailing
quote character. -/
def stripEdgeQuotesG (s : String) : String :=
  let l := match s.data with
    | c :: rest => if c = '"' ∨ c = '\'' then rest else s.data
    | [] => []
  let l := match l.getLast? with
    | some c => if c = '"' ∨ c = '\'' then l.dropLast else l
    | none => l
  ⟨l⟩

/-- JS `split` on a single-character class (keeps empty pieces). -/
def splitChars (p : Char → Bool) : List Char → List (List Char)
  | [] => [[]]
  | c :: rest =>
    match splitChars p rest with
    | [] => if p c then [[], []] else [[c]]
    | g :: gs => if p c then [] :: g :: gs else (c :: g) :: gs

/-- `.replace(/^(project|tender)\s*/i, "")` (alternation order as in the
source; one replacement, no global flag). -/
def stripTypeWord (s : String) : String :=
  let low := jsToLower s
  if "project".data.isPrefixOf low.data then
    ⟨(s.data.drop 7).dropWhile jsWhitespace⟩
  else if "tender".data.isPrefixOf low.data then
    ⟨(s.data.drop 6).dropWhile jsWhitespace⟩
  else s

def skipWs (l : List Char) : List Char := l.dropWhile jsWhitespace

def isJsonNumChar (c : Char) : Bool :=
  c.isDigit ∨ c = '-' ∨ c = '+' ∨ c = '.' ∨ c = 'e' ∨ c = 'E'

/-- One scalar JSON value, returned as its `String(v)` rendering. -/
def parseJsonScalar (l : List Char) : Option (String × List Char) :=
  match l with
  | '"' :: rest =>
    let content := rest.takeWhile (fun c => ¬(c = '"' ∨ c = '\\'))
    match rest.drop content.length with
    | '"' :: rest2 => some (⟨content⟩, rest2)
    | _ => none
  | _ =>
    if "true".data.isPrefixOf l then some ("true", l.drop 4)
    else if "false".data.isPrefixOf l then some ("false", l.drop 5)
    else if "null".data.isPrefixOf l then some ("null", l.drop 4)
    else
      let num := l.takeWhile isJsonNumChar
      if num = [] then none else some (⟨num⟩, l.drop num.length)

def parseJsonElems : Nat → List Char → Option (List String × List Char)
  | 0, _ => none
  | fuel + 1, l =>
    match parseJsonScalar (skipWs l) with
    | none => none
    | some (s, rest) =>
      match skipWs rest with
      | ']' :: rest2 => some ([s], rest2)
      | ',' :: rest2 =>
        match parseJsonElems fuel rest2 with
        | none => none
        | some (ss, rest3) => some (s :: ss, rest3)
      | _ => none

/-- `JSON.parse` restricted to flat arrays of scalars; `none` models a
thrown `SyntaxError` (caught by the source and routed to the manual
fallback). -/
def parseJsonArray (s : String) : Option (List String) :=
  match skipWs s.data with
  | '[' :: rest =>
    match skipWs rest with
    | ']' :: rest2 => if skipWs rest2 = [] then some [] else none
    | rest1 =>
      match parseJsonElems (rest1.length + 1) rest1 with
      | none => none
      | some (ss, rest2) => if skipWs rest2 = [] then some ss else none
  | _ => none

/-- The per-token cleanup of the manual parser. -/
def cleanToken (p : String) : String :=
  let kv := splitChars (fun c => c = ':' ∨ c = '=') p.data
  let token := if 2 ≤ kv.length then (⟨List.intercalate [':'] (kv.drop 1)⟩ : String) else p
  let token := jsTrim (stripEdgeQuotesG token)
  jsTrim (stripTypeWord token)

/-- The manual (non-JSON) parsing path: split on `, ; \n |`, clean every
token, keep the non-empty ones. -/
def manualParse (val : String) : List String :=
  let parts := ((splitChars (fun c => c = ',' ∨ c = ';' ∨ c = '\n' ∨ c = '|')
    val.data).map (fun l => jsTrim ⟨l⟩)).filter (fun s => s ≠ "")
  (parts.map cleanToken).filter (fun t => t ≠ "")

/-- `parseColors` (`index.ts` lines 68–113). -/
def parseColors (input : Option String) : List String :=
  match input with
  | none => []
  | some s =>
    if s = "" then []
    else
      let val := jsTrim s
      let val :=
        if (val.data.head? = some '"' ∧ val.data.getLast? = some '"') ∨
            (val.data.head? = some '\'' ∧ val.data.getLast? = some '\'') then
          if 2 ≤ val.data.length then jsTrim ⟨(val.data.drop 1).dropLast⟩ else val
        else val
      if val.data.head? = some '[' then
        match parseJsonArray val with
        | some arr =>
          ((arr.map jsTrim).filter (fun v => v ≠ "")).map stripEdgeQuotesG
        | none =>
          manualParse ⟨val.data.filter (fun c => ¬(c = '[' ∨ c = ']' ∨ c = '"'))⟩
      else manualParse val

/-- Try to match `label\s*[:=]\s*([^,;\n|]+)` (case-insensitively) at
the head of `l`, returning the capture.  The second `\s*` is greedy but
backtracks: when nothing capturable follows the whitespace, it gives
back its last non-newline whitespace character (every whitespace
character except `\n` is in `[^,;\n|]`) so the capture still succeeds
with a single whitespace character. -/
def labelMatchAt (label : List Char) (l : List Char) : Option (List Char) :=
  if (l.take label.length).map jsCharToLower = label then
    match skipWs (l.drop label.length) with
    | c :: rest2 =>
      if c = ':' ∨ c = '=' then
        let w := rest2.takeWhile jsWhitespace
        let capture := (rest2.drop w.length).takeWhile
          (fun c => ¬(c = ',' ∨ c = ';' ∨ c = '\n' ∨ c = '|'))
        if capture ≠ [] then some capture
        else
          match w.reverse.dropWhile (fun c => c = '\n') with
          | c :: _ => some [c]
          | [] => none
      else none
    | [] => none
  else none

/-- First-match regex search: try each start position left to right. -/
def findLabel (label : List Char) : List Char → Option (List Char)
  | [] => none
  | c :: rest =>
    match labelMatchAt label (c :: rest) with
    | some cap => some cap
    | none => findLabel label rest

/-- `extractLabel` of `updateView`. -/
def extractLabel (src : Option String) (label : String) : Option String :=
  match src with
  | none => none
  | some s =>
    if s = "" then none
    else (findLabel label.data s.data).map (fun cap => jsTrim (stripEdgeQuotesG ⟨cap⟩))

/-- JS truthiness of a nullable string (`undefined` and `""` are falsy). -/
def jsTruthy (o : Option String) : Option String :=
  match o with
  | some s => if s = "" then none else some s
  | none => none

/-- A JS `a || b` chain link on a nullable string. -/
def jsOrStr (a : Option String) (b : String) : String :=
  match jsTruthy a with
  | some s => s
  | none => b

/-- The color mapping of `updateView` (`index.ts` lines 115–153):
parse, prefer labeled values, fall back to a dataset-provided string,
then to the documented defaults, and order the final list as
`[projectColor, tenderColor, …rest]`. -/
def resolveColors (colorsValue : Option String) (datasetColors : Option String) :
    List String :=
  let colors := parseColors colorsValue
  let labeledProject := extractLabel colorsValue "project"
  let labeledTender := extractLabel colorsValue "tender"
  let colors :=
    if colors = [] then
      match datasetColors with
      | some dv => if dv ≠ "" then parseColors (some dv) else colors
      | none => colors
    else colors
  let colors :=
    if colors = [] ∧ jsTruthy labeledProject = none ∧ jsTruthy labeledTender = none
    then ["#FFB74D", "#90CAF9"] else colors
  let projectColorFinal := jsOrStr labeledProject (jsOrStr colors.head? "#FFB74D")
  let tenderColorFinal := jsOrStr labeledTender
    (jsOrStr (colors.find? (fun c => c ≠ projectColorFinal)) "#90CAF9")
  projectColorFinal :: tenderColorFinal ::
    colors.filter (fun c => c ≠ projectColorFinal ∧ c ≠ tenderColorFinal)

/-- **C9.** Color resolution is a total function (it never throws) and
satisfies the stated vectors; in particular the malformed JSON-looking
input falls back to manual parsing. -/
theorem c9_color_vectors :
    (resolveColors (some "#FFA,#00F") none).take 2 = ["#FFA", "#00F"] ∧
    (resolveColors (some "tender: #00F, project: #FFA") none).take 2
      = ["#FFA", "#00F"] ∧
    resolveColors none none = ["#FFB74D", "#90CAF9"] ∧
    resolveColors (some "") none = ["#FFB74D", "#90CAF9"] ∧
    parseJsonArray "[#FFA,#00F" = none ∧
    parseColors (some "[#FFA,#00F") = ["#FFA", "#00F"] ∧
    (resolveColors (some "[#FFA,#00F") none).take 2 = ["#FFA", "#00F"] := by decide

end Gantt
